import Mathlib

/-!
Verification of the crossword CSP solver (`generate.py`).

The Grid Model (`crossword.py`, the `Crossword`/`Variable` classes) is an
external collaborator of the core; it is modelled from the specification's
data-model section.  Every function of `CrosswordCreator` used by the claims
is translated from `generate.py` into an executable Lean definition:
mutation of `self.domains` becomes explicit state passing of a `Domains`
value, Python's `None`-able results become `Option`, and the worklist loop
of `ac3` is driven by an explicit fuel that is proved sufficient.
-/

namespace CrosswordCSP

/-- Modelled from the spec: `crossword.py` is not part of the sources.  A
slot ("variable") is identified by start row, start column, direction and
length; two slots are equal iff all four fields match. -/
structure Variable where
  row : Nat
  col : Nat
  across : Bool
  length : Nat
deriving DecidableEq, Repr

/-- Words are fixed-case strings, modelled as lists of characters. -/
abbrev Word := List Char

/-- Modelled from the spec: the Grid Model plus the Word Pool.  `variables`
is the full set of slots (a list fixes the iteration order that Python
leaves to its set type), `words` is the shared word pool, and `overlaps`
gives, for an ordered pair of slots, either `none` (no intersection) or the
pair of in-word character offsets that must agree. -/
structure Crossword where
  vars : List Variable
  words : List Word
  overlaps : Variable → Variable → Option (Nat × Nat)

/-- Modelled from the spec: the neighbor set of a slot is all other slots
with a non-`None` overlap, derived from the overlap relation. -/
def neighbors (c : Crossword) (x : Variable) : List Variable :=
  c.vars.filter (fun y => decide (y ≠ x) && (c.overlaps x y).isSome)

/-- The per-slot domain store; `CrosswordCreator.__init__` keys it by the
crossword's variables, so only values at members of `c.vars` are ever
meaningful. -/
abbrev Domains := Variable → List Word

/-- `self.domains = {var: self.crossword.words.copy() for var in variables}`. -/
def initialDomains (c : Crossword) : Domains := fun _ => c.words

/-- Geometric well-formedness of the Grid Model, stated by the spec: a slot
does not overlap itself, the overlap relation is symmetric with swapped
offsets, and each offset is within its slot's length. -/
def wfOverlapsOK (c : Crossword) : Bool :=
  c.vars.all fun x =>
    (c.overlaps x x).isNone &&
    (c.vars.all fun y =>
      match c.overlaps x y with
      | none => true
      | some (i, j) =>
        decide (c.overlaps y x = some (j, i)) &&
        decide (i < x.length) && decide (j < y.length))

/-- A well-formed crossword: distinct slots and a geometrically coherent
overlap relation. -/
def WF (c : Crossword) : Prop := c.vars.Nodup ∧ wfOverlapsOK c = true

instance decidableWF (c : Crossword) : Decidable (WF c) :=
  inferInstanceAs (Decidable (c.vars.Nodup ∧ wfOverlapsOK c = true))

theorem WF.overlap_spec {c : Crossword} (h : WF c) {x y : Variable}
    (hx : x ∈ c.vars) (hy : y ∈ c.vars) {i j : Nat}
    (ho : c.overlaps x y = some (i, j)) :
    c.overlaps y x = some (j, i) ∧ i < x.length ∧ j < y.length := by
  obtain ⟨-, hall⟩ := h
  simp only [wfOverlapsOK, List.all_eq_true, Bool.and_eq_true] at hall
  have := (hall x hx).2 y hy
  rw [ho] at this
  simp only [Bool.and_eq_true, decide_eq_true_eq] at this
  exact ⟨this.1.1, this.1.2, this.2⟩

theorem WF.overlap_self {c : Crossword} (h : WF c) {x : Variable}
    (hx : x ∈ c.vars) : c.overlaps x x = none := by
  obtain ⟨-, hall⟩ := h
  simp only [wfOverlapsOK, List.all_eq_true, Bool.and_eq_true] at hall
  have := (hall x hx).1
  simpa [Option.isNone_iff_eq_none] using this

theorem WF.ne_of_overlap {c : Crossword} (h : WF c) {x y : Variable}
    (hx : x ∈ c.vars) {p : Nat × Nat}
    (ho : c.overlaps x y = some p) : x ≠ y := by
  rintro rfl
  rw [h.overlap_self hx] at ho
  exact Option.noConfusion ho

theorem mem_neighbors {c : Crossword} {x y : Variable} :
    y ∈ neighbors c x ↔ y ∈ c.vars ∧ y ≠ x ∧ (c.overlaps x y).isSome := by
  simp [neighbors, List.mem_filter, Bool.and_eq_true]

theorem neighbors_subset {c : Crossword} {x y : Variable}
    (h : y ∈ neighbors c x) : y ∈ c.vars := (mem_neighbors.mp h).1

theorem neighbors_length_le (c : Crossword) (x : Variable) :
    (neighbors c x).length ≤ c.vars.length :=
  List.length_filter_le _ _

/-! ### Consistency Engine (`generate.py`, lines 96–181) -/

/-- `CrosswordCreator.enforce_node_consistency`: for every slot of the
store, remove every candidate word whose length differs from the slot's
length.  The guard mirrors the dict being keyed by the crossword's
variables. -/
def enforce_node_consistency (c : Crossword) (d : Domains) : Domains :=
  fun v =>
    if v ∈ c.vars then (d v).filter (fun w => decide (w.length = v.length))
    else d v

/-- The character comparison `x_word[pos[0]] == y_word[pos[1]]` of
`revise`; list indexing is totalised with a default character, which agrees
with Python's indexing whenever the offsets are in range. -/
def matchAt (i j : Nat) (wx wy : Word) : Bool :=
  decide (wx.getD i '?' = wy.getD j '?')

/-- `CrosswordCreator.revise`: if `(x, y)` has no overlap, no change and
`False`; otherwise remove from `x`'s domain every word with no compatible
partner in `y`'s domain, and report whether anything was removed. -/
def revise (c : Crossword) (d : Domains) (x y : Variable) :
    Domains × Bool :=
  match c.overlaps x y with
  | none => (d, false)
  | some (i, j) =>
    let keep : Word → Bool := fun wx => (d y).any (fun wy => matchAt i j wx wy)
    (Function.update d x ((d x).filter keep), !((d x).all keep))

/-- The re-enqueueing step of `ac3`: for each neighbor of `x`, append the
arc `(x, neighbor)` unless the worklist already holds it in either
orientation (the membership test sees the arcs appended so far, as Python's
`in` does on the live list). -/
def addArcs (c : Crossword) (x : Variable)
    (arcs : List (Variable × Variable)) : List (Variable × Variable) :=
  (neighbors c x).foldl
    (fun acc n => if (x, n) ∈ acc ∨ (n, x) ∈ acc then acc else acc ++ [(x, n)])
    arcs

/-- The initial worklist built by `ac3` when `arcs` is `None`: every
neighboring pair, once per unordered pair. -/
def initialArcs (c : Crossword) : List (Variable × Variable) :=
  c.vars.foldl (fun acc x => addArcs c x acc) []

/-- Total number of candidate words over the crossword's slots; the measure
that shows the `ac3` worklist loop terminates. -/
def totalSize (c : Crossword) (d : Domains) : Nat :=
  (c.vars.map (fun v => (d v).length)).sum

/-- The `while arcs:` loop of `ac3`, fuelled.  Each iteration pops the
front arc and revises both of its orientations; an emptied domain returns
`False` immediately, and a changed domain re-enqueues the arcs of the
revised slot's neighbors. -/
def ac3Loop (c : Crossword) :
    Nat → Domains → List (Variable × Variable) → Option (Domains × Bool)
  | 0, _, _ => none
  | _ + 1, d, [] => some (d, true)
  | fuel + 1, d, (a, b) :: rest =>
    let r1 := revise c d a b
    if (r1.1 a).isEmpty then some (r1.1, false)
    else
      let arcs1 := if r1.2 then addArcs c a rest else rest
      let r2 := revise c r1.1 b a
      if (r2.1 b).isEmpty then some (r2.1, false)
      else
        let arcs2 := if r2.2 then addArcs c b arcs1 else arcs1
        ac3Loop c fuel r2.1 arcs2

/-- Fuel that is proved sufficient for `ac3Loop` on in-contract worklists. -/
def fuelBound (c : Crossword) (d : Domains)
    (arcs : List (Variable × Variable)) : Nat :=
  arcs.length + 2 * c.vars.length * totalSize c d + 1

/-- `CrosswordCreator.ac3`: `none` for the `arcs` argument selects the
initial worklist of all neighboring pairs.  The result is `some (d', ok)`
on normal return (`ok = false` iff a domain was emptied); the outer `none`
(fuel exhaustion) is proved unreachable for in-contract inputs. -/
def ac3 (c : Crossword) (d : Domains)
    (arcsOpt : Option (List (Variable × Variable))) :
    Option (Domains × Bool) :=
  let arcs := arcsOpt.getD (initialArcs c)
  ac3Loop c (fuelBound c d arcs) d arcs

/-- The normal-return value of `ac3` with the default worklist (total by
the termination theorem). -/
def ac3All (c : Crossword) (d : Domains) : Domains × Bool :=
  (ac3 c d none).getD (d, false)

/-! ### Search Engine (`generate.py`, lines 183–302) -/

/-- An assignment is a dict from variables to words: an insertion-ordered
association list whose keys are unique by construction. -/
abbrev Assignment := List (Variable × Word)

/-- Dict lookup `assignment[v]`. -/
def lookupA : Assignment → Variable → Option Word
  | [], _ => none
  | (k, w) :: rest, v => if k = v then some w else lookupA rest v

/-- Dict key membership `v in assignment`. -/
def keyMem (a : Assignment) (v : Variable) : Bool := (lookupA a v).isSome

/-- Dict item assignment `assignment[v] = w`: overwrite in place if the key
exists, append otherwise. -/
def setKey (a : Assignment) (v : Variable) (w : Word) : Assignment :=
  if keyMem a v then a.map (fun p => if p.1 = v then (v, w) else p)
  else a ++ [(v, w)]

/-- `CrosswordCreator.assignment_complete`: every crossword variable has a
value. -/
def assignment_complete (c : Crossword) (a : Assignment) : Bool :=
  c.vars.all fun v => keyMem a v

/-- `CrosswordCreator.consistent`: for every bound slot, the word length
matches the slot length, every assigned neighbor agrees on the overlap
characters, and the word is not used by another slot. -/
def consistent (c : Crossword) (a : Assignment) : Bool :=
  a.all fun p =>
    decide (p.1.length = p.2.length) &&
    ((neighbors c p.1).all fun n =>
      match lookupA a n with
      | none => true
      | some wn =>
        match c.overlaps p.1 n with
        | none => true
        | some (i, j) => matchAt i j p.2 wn) &&
    decide ((a.map Prod.snd).count p.2 ≤ 1)

/-- `CrosswordCreator.order_domain_values`: deliberately a no-op heuristic,
it returns the domain in its current order. -/
def order_domain_values (c : Crossword) (d : Domains) (var : Variable) :
    List Word :=
  d var

/-- First loop of `select_unassigned_variable`: track the minimum domain
size seen so far and the list of unassigned variables attaining it.  The
`Option` on the list mirrors the local `variables` being unbound until the
first strict improvement: appending to it before then is Python's
`NameError`, which collapses the whole computation to `none`. -/
def suvLoop1 (d : Domains) (a : Assignment) :
    List Variable → Nat → Option (List Variable) →
    Option (Nat × Option (List Variable))
  | [], m, vs => some (m, vs)
  | v :: rest, m, vs =>
    if keyMem a v then suvLoop1 d a rest m vs
    else
      let L := (d v).length
      if L < m then suvLoop1 d a rest L (some [v])
      else if L = m then
        match vs with
        | some l => suvLoop1 d a rest m (some (l ++ [v]))
        | none => none
      else suvLoop1 d a rest m vs

/-- Second loop of `select_unassigned_variable`: among the tied variables,
keep the first one whose neighbor count strictly exceeds the running
maximum (initially `0`).  If no variable does, the local `chosen` is never
bound and the function ends in a `NameError`, modelled by `none`. -/
def suvLoop2 (c : Crossword) :
    List Variable → Nat → Option Variable → Option Variable
  | [], _, chosen => chosen
  | v :: rest, m, chosen =>
    let n := (neighbors c v).length
    if m < n then suvLoop2 c rest n (some v) else suvLoop2 c rest m chosen

/-- `CrosswordCreator.select_unassigned_variable`: minimum remaining
values with a strict degree tie-break; `none` models the `NameError`
crashes of the source. -/
def select_unassigned_variable (c : Crossword) (d : Domains)
    (a : Assignment) : Option Variable :=
  match suvLoop1 d a c.vars (10 ^ 6) none with
  | none => none
  | some (_, none) => none
  | some (_, some [v]) => some v
  | some (_, some vs) => suvLoop2 c vs 0 none

/-- The `for value in self.order_domain_values(...)` loop of `backtrack`:
each candidate extends a copy of the current assignment, is checked for
consistency, and is recursed on; a recursive `None` discards the extension
and tries the next value.  The outer `Option` is the crash channel of the
recursion, the inner one is `backtrack`'s `None`. -/
def tryList (c : Crossword) (bt : Assignment → Option (Option Assignment))
    (a : Assignment) (var : Variable) :
    List Word → Option (Option Assignment)
  | [] => some none
  | w :: ws =>
    let a2 := a ++ [(var, w)]
    if consistent c a2 then
      match bt a2 with
      | none => none
      | some (some r) => some (some r)
      | some none => tryList c bt a var ws
    else tryList c bt a var ws

/-- `CrosswordCreator.backtrack`, fuelled: a complete assignment is
returned as-is; otherwise a slot is selected and its candidate values are
tried in order.  `some none` is the source's `return None`
(unsatisfiable); the outer `none` covers fuel exhaustion and the
`NameError` crash of variable selection, neither of which is a normal
return of the source. -/
def backtrackFuel (c : Crossword) (d : Domains) :
    Nat → Assignment → Option (Option Assignment)
  | 0, _ => none
  | fuel + 1, a =>
    if assignment_complete c a then some (some a)
    else
      match select_unassigned_variable c d a with
      | none => none
      | some var =>
        tryList c (backtrackFuel c d fuel) a var (order_domain_values c d var)

/-- `backtrack` with fuel sufficient for any run that starts from the empty
assignment: the recursion adds one binding per level, so the number of
slots bounds its depth. -/
def backtrack (c : Crossword) (d : Domains) (a : Assignment) :
    Option (Option Assignment) :=
  backtrackFuel c d (c.vars.length + 1) a

/-- `CrosswordCreator.solve`: enforce node consistency, run `ac3` — whose
Boolean result the source discards — and call `backtrack` on the empty
assignment unconditionally. -/
def solve (c : Crossword) : Option (Option Assignment) :=
  match ac3 c (enforce_node_consistency c (initialDomains c)) none with
  | none => none
  | some (d2, _) => backtrack c d2 []

/-- Control flow of `solve` (`generate.py` lines 92–94): the statement
`return self.backtrack(dict())` follows `self.ac3()` unconditionally, so
the Search Engine is invoked exactly when `ac3` returns normally, whatever
Boolean it reports. -/
def solveInvokesBacktrack (c : Crossword) : Bool :=
  (ac3 c (enforce_node_consistency c (initialDomains c)) none).isSome

/-! ### A heap model for the copy-on-branch discipline of `backtrack`

Python passes dicts by reference; to state that `backtrack` never mutates
the dict its caller handed it, the dicts are placed in an explicit store of
numbered cells and `backtrack` is translated once more, this time
performing every allocation (`dict()`, `assignment.copy()`) and in-place
write (`new_assignment[var] = value`) on the store. -/

/-- A heap of assignment objects: cells `0, …, next - 1` are live. -/
structure Store where
  next : Nat
  mem : Nat → Assignment

/-- Allocate a fresh dict holding `v`. -/
def storeAlloc (s : Store) (v : Assignment) : Store × Nat :=
  (⟨s.next + 1, Function.update s.mem s.next v⟩, s.next)

/-- Overwrite the dict in cell `r` with `v`. -/
def storeWrite (s : Store) (r : Nat) (v : Assignment) : Store :=
  ⟨s.next, Function.update s.mem r v⟩

/-- The candidate loop of `backtrack` on the store: `r` is the caller's
dict, `nr` the current `new_assignment` object.  `new_assignment[var] =
value` writes cell `nr` in place; after a failed recursion,
`assignment.copy()` allocates a fresh cell from the caller's dict. -/
def tryListS (c : Crossword)
    (bt : Store → Nat → Store × Option (Option Nat))
    (s : Store) (r nr : Nat) (var : Variable) :
    List Word → Store × Option (Option Nat)
  | [] => (s, some none)
  | w :: ws =>
    let s1 := storeWrite s nr (setKey (s.mem nr) var w)
    if consistent c (s1.mem nr) then
      match bt s1 nr with
      | (s2, none) => (s2, none)
      | (s2, some (some res)) => (s2, some (some res))
      | (s2, some none) =>
        let al := storeAlloc s2 (s2.mem r)
        tryListS c bt al.1 r al.2 var ws
    else tryListS c bt s1 r nr var ws

/-- `CrosswordCreator.backtrack` translated over the store: the result is
a reference to the returned dict (or `None`, or a crash), together with
the store as left behind. -/
def backtrackFuelS (c : Crossword) (d : Domains) :
    Nat → Store → Nat → Store × Option (Option Nat)
  | 0, s, _ => (s, none)
  | fuel + 1, s, r =>
    if assignment_complete c (s.mem r) then (s, some (some r))
    else
      match select_unassigned_variable c d (s.mem r) with
      | none => (s, none)
      | some var =>
        let al := storeAlloc s (s.mem r)
        tryListS c (backtrackFuelS c d fuel) al.1 r al.2 var
          (order_domain_values c d var)

/-! ### Concrete instances

Small crosswords used to witness the theorems: the two-slot crossing grid
of the specification's test scenarios, with an unsatisfiable and a
satisfiable word pool, and a grid of two isolated slots. -/

/-- Slot `A`: row 0, column 0, across, length 3. -/
def varA : Variable := ⟨0, 0, true, 3⟩

/-- Slot `B`: row 0, column 1, down, length 3. -/
def varB : Variable := ⟨0, 1, false, 3⟩

/-- A second across slot, disjoint from `varA`. -/
def varC : Variable := ⟨2, 0, true, 3⟩

def catW : Word := ['C', 'A', 'T']
def dogW : Word := ['D', 'O', 'G']
def arcW : Word := ['A', 'R', 'C']

/-- Overlap relation of the crossing grid: `A[1]` is the same cell as
`B[0]`. -/
def overlapsAB : Variable → Variable → Option (Nat × Nat) := fun x y =>
  if x = varA ∧ y = varB then some (1, 0)
  else if x = varB ∧ y = varA then some (0, 1)
  else none

/-- Crossing grid with pool `{CAT, DOG}`: no pair matches at the crossing,
so arc consistency wipes out `A`'s domain. -/
def cUnsat : Crossword := ⟨[varA, varB], [catW, dogW], overlapsAB⟩

/-- Crossing grid with pool `{CAT, ARC}`: `A = CAT`, `B = ARC` is a
solution. -/
def cSat : Crossword := ⟨[varA, varB], [catW, arcW], overlapsAB⟩

/-- Two isolated slots of equal length: no overlaps at all. -/
def cIso : Crossword := ⟨[varA, varC], [catW, dogW], fun _ _ => none⟩

/-! ### Basic lemmas about `revise` -/

theorem revise_apply_ne (c : Crossword) (d : Domains) (x y z : Variable)
    (h : z ≠ x) : (revise c d x y).1 z = d z := by
  unfold revise
  cases c.overlaps x y with
  | none => rfl
  | some p =>
    cases p with
    | mk i j => exact Function.update_noteq h _ d

theorem revise_apply_eq (c : Crossword) (d : Domains) (x y : Variable)
    {i j : Nat} (ho : c.overlaps x y = some (i, j)) :
    (revise c d x y).1 x =
      (d x).filter (fun wx => (d y).any (fun wy => matchAt i j wx wy)) := by
  unfold revise
  rw [ho]
  exact Function.update_same x _ d

theorem revise_snd_eq (c : Crossword) (d : Domains) (x y : Variable)
    {i j : Nat} (ho : c.overlaps x y = some (i, j)) :
    (revise c d x y).2 =
      !((d x).all (fun wx => (d y).any (fun wy => matchAt i j wx wy))) := by
  unfold revise
  rw [ho]

theorem revise_sublist (c : Crossword) (d : Domains) (x y v : Variable) :
    List.Sublist ((revise c d x y).1 v) (d v) := by
  by_cases h : v = x
  · subst h
    cases ho : c.overlaps v y with
    | none => unfold revise; rw [ho]
    | some p =>
      cases p with
      | mk i j => rw [revise_apply_eq c d v y ho]; exact List.filter_sublist _
  · rw [revise_apply_ne c d x y v h]

theorem revise_unchanged (c : Crossword) (d : Domains) (x y : Variable)
    (h : (revise c d x y).2 = false) (v : Variable) :
    (revise c d x y).1 v = d v := by
  by_cases hvx : v = x
  · subst hvx
    cases ho : c.overlaps v y with
    | none => unfold revise; rw [ho]
    | some p =>
      cases p with
      | mk i j =>
        rw [revise_snd_eq c d v y ho, Bool.not_eq_false'] at h
        rw [revise_apply_eq c d v y ho]
        exact List.filter_eq_self.mpr (List.all_eq_true.mp h)
  · exact revise_apply_ne c d x y v hvx

/-- If `x`'s arc to `y` is already consistent, revising changes nothing
and reports no revision. -/
theorem revise_of_consistent (c : Crossword) (d : Domains) (x y : Variable)
    {i j : Nat} (ho : c.overlaps x y = some (i, j))
    (h : ∀ wx ∈ d x, ∃ wy ∈ d y, wx.getD i '?' = wy.getD j '?') :
    (revise c d x y).2 = false ∧ (revise c d x y).1 x = d x := by
  have hall : (d x).all (fun wx => (d y).any (fun wy => matchAt i j wx wy)) = true := by
    rw [List.all_eq_true]
    intro wx hwx
    obtain ⟨wy, hwy, hm⟩ := h wx hwx
    rw [List.any_eq_true]
    exact ⟨wy, hwy, by simpa [matchAt] using hm⟩
  constructor
  · rw [revise_snd_eq c d x y ho, hall]; rfl
  · rw [revise_apply_eq c d x y ho]
    exact List.filter_eq_self.mpr (List.all_eq_true.mp hall)

/-- Every survivor of `revise x y` has a compatible partner in `y`'s
(unchanged) domain. -/
theorem revise_post (c : Crossword) (d : Domains) (x y : Variable)
    {i j : Nat} (ho : c.overlaps x y = some (i, j)) :
    ∀ wx ∈ (revise c d x y).1 x, ∃ wy ∈ d y, wx.getD i '?' = wy.getD j '?' := by
  intro wx hwx
  rw [revise_apply_eq c d x y ho, List.mem_filter] at hwx
  obtain ⟨wy, hwy, hm⟩ := List.any_eq_true.mp hwx.2
  exact ⟨wy, hwy, by simpa [matchAt] using hm⟩

/-- C10: `revise(x, y)` leaves the domain of every slot other than `x`
unchanged; in particular `y`'s domain is never modified. -/
theorem c10_revise_frame (c : Crossword) (d : Domains) (x y z : Variable)
    (h : z ≠ x) : (revise c d x y).1 z = d z :=
  revise_apply_ne c d x y z h

theorem c10_revise_frame_witness :
    (revise cUnsat (initialDomains cUnsat) varA varB).1 varB =
      initialDomains cUnsat varB :=
  c10_revise_frame cUnsat (initialDomains cUnsat) varA varB varB (by decide)

/-- C4: `revise(x, y)` is a no-op returning `False` when the pair has no
overlap; otherwise a word survives in `x`'s domain exactly when some word
in `y`'s domain matches it at the overlap offsets, and the returned
Boolean is `True` exactly when `x`'s domain changed. -/
theorem c4_revise_spec (c : Crossword) (d : Domains) (x y : Variable) :
    (c.overlaps x y = none → revise c d x y = (d, false)) ∧
    (∀ i j, c.overlaps x y = some (i, j) →
      (∀ wx : Word, wx ∈ (revise c d x y).1 x ↔
        wx ∈ d x ∧ ∃ wy ∈ d y, wx.getD i '?' = wy.getD j '?') ∧
      ((revise c d x y).2 = true ↔ (revise c d x y).1 x ≠ d x)) := by
  constructor
  · intro ho
    unfold revise
    rw [ho]
  · intro i j ho
    constructor
    · intro wx
      rw [revise_apply_eq c d x y ho, List.mem_filter]
      constructor
      · rintro ⟨hmem, hany⟩
        obtain ⟨wy, hwy, hm⟩ := List.any_eq_true.mp hany
        exact ⟨hmem, wy, hwy, by simpa [matchAt] using hm⟩
      · rintro ⟨hmem, wy, hwy, hm⟩
        refine ⟨hmem, List.any_eq_true.mpr ⟨wy, hwy, ?_⟩⟩
        simpa [matchAt] using hm
    · rw [revise_snd_eq c d x y ho, revise_apply_eq c d x y ho]
      rw [Bool.not_eq_true']
      constructor
      · intro hall hfil
        have htrue := List.all_eq_true.mpr (List.filter_eq_self.mp hfil)
        rw [htrue] at hall
        exact Bool.noConfusion hall
      · intro hne
        rw [Bool.eq_false_iff]
        intro hall
        exact hne (List.filter_eq_self.mpr (List.all_eq_true.mp hall))

theorem c4_revise_spec_witness :
    cUnsat.overlaps varA varB = some (1, 0) ∧
    (catW ∈ (revise cUnsat (initialDomains cUnsat) varA varB).1 varA ↔
      catW ∈ initialDomains cUnsat varA ∧
      ∃ wy ∈ initialDomains cUnsat varB, catW.getD 1 '?' = wy.getD 0 '?') ∧
    ((revise cUnsat (initialDomains cUnsat) varA varB).2 = true ↔
      (revise cUnsat (initialDomains cUnsat) varA varB).1 varA ≠
        initialDomains cUnsat varA) :=
  ⟨by decide,
   ((c4_revise_spec cUnsat (initialDomains cUnsat) varA varB).2 1 0
      (by decide)).1 catW,
   ((c4_revise_spec cUnsat (initialDomains cUnsat) varA varB).2 1 0
      (by decide)).2⟩

/-- C5: after `enforce_node_consistency`, every word left in a slot's
domain has exactly the slot's length, and no word of the correct length
was removed. -/
theorem c5_node_consistency (c : Crossword) (d : Domains) (v : Variable)
    (hv : v ∈ c.vars) :
    (∀ w ∈ enforce_node_consistency c d v, w.length = v.length) ∧
    (∀ w ∈ d v, w.length = v.length → w ∈ enforce_node_consistency c d v) := by
  unfold enforce_node_consistency
  rw [if_pos hv]
  constructor
  · intro w hw
    exact of_decide_eq_true (List.mem_filter.mp hw).2
  · intro w hw hlen
    exact List.mem_filter.mpr ⟨hw, decide_eq_true hlen⟩

theorem c5_node_consistency_witness :
    varA ∈ cUnsat.vars ∧
    catW ∈ enforce_node_consistency cUnsat (initialDomains cUnsat) varA :=
  ⟨by decide,
   (c5_node_consistency cUnsat (initialDomains cUnsat) varA (by decide)).2
     catW (by decide) (by decide)⟩

/-- C7: on a grid of two isolated slots with equally sized domains and no
assignment yet, `select_unassigned_variable` does not return any of the
tied slots — the source raises `NameError` because its degree tie-break
never binds `chosen` when every tied slot has zero neighbors. -/
theorem c7_select_crashes_on_isolated_tie :
    select_unassigned_variable cIso (initialDomains cIso) [] = none := by
  decide

/-- C1 counterexample: on the crossing grid with pool `{CAT, DOG}`,
`ac3` reports failure (`False`), yet `solve` still reaches its
unconditional `return self.backtrack(dict())`, so the Search Engine is
invoked. -/
theorem c1_counterexample :
    (ac3 cUnsat (enforce_node_consistency cUnsat (initialDomains cUnsat))
        none).map Prod.snd = some false ∧
    solveInvokesBacktrack cUnsat = true := by
  constructor
  · decide
  · decide

/-! ### Termination of the `ac3` worklist loop -/

/-- Both components of every queued arc are crossword variables. -/
def arcsIn (c : Crossword) (arcs : List (Variable × Variable)) : Prop :=
  ∀ p ∈ arcs, p.1 ∈ c.vars ∧ p.2 ∈ c.vars

theorem foldl_addArcs_mem (c : Crossword) (x : Variable) :
    ∀ (ns : List Variable) (acc : List (Variable × Variable))
      (p : Variable × Variable),
      p ∈ ns.foldl
        (fun acc n => if (x, n) ∈ acc ∨ (n, x) ∈ acc then acc
          else acc ++ [(x, n)]) acc →
      p ∈ acc ∨ (p.1 = x ∧ p.2 ∈ ns)
  | [], acc, p, h => Or.inl h
  | n :: ns, acc, p, h => by
    rcases foldl_addArcs_mem c x ns _ p h with h' | h'
    · dsimp only at h'
      by_cases hc : (x, n) ∈ acc ∨ (n, x) ∈ acc
      · rw [if_pos hc] at h'
        exact Or.inl h'
      · rw [if_neg hc] at h'
        rcases List.mem_append.mp h' with h'' | h''
        · exact Or.inl h''
        · right
          rcases List.mem_singleton.mp h'' with rfl
          exact ⟨rfl, List.mem_cons_self n ns⟩
    · exact Or.inr ⟨h'.1, List.mem_cons_of_mem n h'.2⟩

theorem addArcs_mem_or (c : Crossword) (x : Variable)
    (arcs : List (Variable × Variable)) (p : Variable × Variable)
    (h : p ∈ addArcs c x arcs) :
    p ∈ arcs ∨ (p.1 = x ∧ p.2 ∈ neighbors c x) :=
  foldl_addArcs_mem c x (neighbors c x) arcs p h

theorem foldl_addArcs_sub (c : Crossword) (x : Variable) :
    ∀ (ns : List Variable) (acc : List (Variable × Variable)),
      acc ⊆ ns.foldl
        (fun acc n => if (x, n) ∈ acc ∨ (n, x) ∈ acc then acc
          else acc ++ [(x, n)]) acc
  | [], _ => fun _ h => h
  | n :: ns, acc => by
    refine List.Subset.trans ?_ (foldl_addArcs_sub c x ns _)
    dsimp only
    by_cases hc : (x, n) ∈ acc ∨ (n, x) ∈ acc
    · rw [if_pos hc]
      exact fun _ h => h
    · rw [if_neg hc]
      exact List.subset_append_left _ _


theorem addArcs_sub (c : Crossword) (x : Variable)
    (arcs : List (Variable × Variable)) : arcs ⊆ addArcs c x arcs :=
  foldl_addArcs_sub c x (neighbors c x) arcs

theorem foldl_addArcs_covers (c : Crossword) (x : Variable) :
    ∀ (ns : List Variable) (acc : List (Variable × Variable))
      (n : Variable), n ∈ ns →
      (x, n) ∈ ns.foldl
        (fun acc n => if (x, n) ∈ acc ∨ (n, x) ∈ acc then acc
          else acc ++ [(x, n)]) acc ∨
      (n, x) ∈ ns.foldl
        (fun acc n => if (x, n) ∈ acc ∨ (n, x) ∈ acc then acc
          else acc ++ [(x, n)]) acc
  | m :: ns, acc, n, hn => by
    rcases List.mem_cons.mp hn with rfl | hn'
    · have hstep : (x, n) ∈ (if (x, n) ∈ acc ∨ (n, x) ∈ acc then acc
          else acc ++ [(x, n)]) ∨
        (n, x) ∈ (if (x, n) ∈ acc ∨ (n, x) ∈ acc then acc
          else acc ++ [(x, n)]) := by
        dsimp only
        by_cases hc : (x, n) ∈ acc ∨ (n, x) ∈ acc
        · rw [if_pos hc]
          exact hc
        · rw [if_neg hc]
          exact Or.inl (List.mem_append_right _ (List.mem_singleton_self _))
      rcases hstep with h | h
      · exact Or.inl (foldl_addArcs_sub c x ns _ h)
      · exact Or.inr (foldl_addArcs_sub c x ns _ h)
    · exact foldl_addArcs_covers c x ns _ n hn'

theorem addArcs_covers (c : Crossword) (x n : Variable)
    (arcs : List (Variable × Variable)) (hn : n ∈ neighbors c x) :
    (x, n) ∈ addArcs c x arcs ∨ (n, x) ∈ addArcs c x arcs :=
  foldl_addArcs_covers c x (neighbors c x) arcs n hn

theorem foldl_addArcs_length (c : Crossword) (x : Variable) :
    ∀ (ns : List Variable) (acc : List (Variable × Variable)),
      (ns.foldl
        (fun acc n => if (x, n) ∈ acc ∨ (n, x) ∈ acc then acc
          else acc ++ [(x, n)]) acc).length ≤ acc.length + ns.length
  | [], acc => le_refl _
  | n :: ns, acc => by
    refine le_trans (foldl_addArcs_length c x ns _) ?_
    have hstep : (if (x, n) ∈ acc ∨ (n, x) ∈ acc then acc
        else acc ++ [(x, n)]).length ≤ acc.length + 1 := by
      by_cases hc : (x, n) ∈ acc ∨ (n, x) ∈ acc
      · rw [if_pos hc]; omega
      · rw [if_neg hc]; simp
    simp only [List.length_cons]
    omega

theorem addArcs_length (c : Crossword) (x : Variable)
    (arcs : List (Variable × Variable)) :
    (addArcs c x arcs).length ≤ arcs.length + c.vars.length :=
  le_trans (foldl_addArcs_length c x (neighbors c x) arcs)
    (by have := neighbors_length_le c x; omega)

theorem arcsIn_addArcs (c : Crossword) (x : Variable)
    (arcs : List (Variable × Variable)) (hx : x ∈ c.vars)
    (h : arcsIn c arcs) : arcsIn c (addArcs c x arcs) := by
  intro p hp
  rcases addArcs_mem_or c x arcs p hp with hp' | hp'
  · exact h p hp'
  · exact ⟨hp'.1 ▸ hx, neighbors_subset hp'.2⟩

theorem totalSize_congr (c : Crossword) {d d' : Domains}
    (h : ∀ v, d' v = d v) : totalSize c d' = totalSize c d := by
  unfold totalSize
  congr 1
  exact List.map_congr_left (fun v _ => by rw [h v])

theorem totalSize_mono (c : Crossword) {d d' : Domains}
    (h : ∀ v, List.Sublist (d' v) (d v)) :
    totalSize c d' ≤ totalSize c d := by
  unfold totalSize
  exact List.sum_le_sum (fun v _ => (h v).length_le)

theorem totalSize_revise_le (c : Crossword) (d : Domains) (x y : Variable) :
    totalSize c (revise c d x y).1 ≤ totalSize c d :=
  totalSize_mono c (revise_sublist c d x y)

theorem totalSize_revise_lt (c : Crossword) (d : Domains) (x y : Variable)
    (hx : x ∈ c.vars) (h : (revise c d x y).2 = true) :
    totalSize c (revise c d x y).1 < totalSize c d := by
  unfold totalSize
  refine List.sum_lt_sum _ _ (fun v _ => ((revise_sublist c d x y) v).length_le)
    ⟨x, hx, ?_⟩
  cases ho : c.overlaps x y with
  | none =>
    unfold revise at h
    rw [ho] at h
    exact Bool.noConfusion h
  | some p =>
    cases p with
    | mk i j =>
      rw [revise_apply_eq c d x y ho]
      rw [revise_snd_eq c d x y ho, Bool.not_eq_true'] at h
      have hne : ¬ ∀ wx ∈ d x,
          ((d y).any fun wy => matchAt i j wx wy) = true := fun hall => by
        rw [List.all_eq_true.mpr hall] at h
        exact Bool.noConfusion h
      refine lt_of_le_of_ne (List.filter_sublist _).length_le ?_
      intro hlen
      exact hne (List.filter_eq_self.mp ((List.filter_sublist _).eq_of_length hlen))

theorem arcsIn_foldl (c : Crossword) :
    ∀ (l : List Variable) (acc : List (Variable × Variable)),
      (∀ x ∈ l, x ∈ c.vars) → arcsIn c acc →
      arcsIn c (l.foldl (fun acc x => addArcs c x acc) acc)
  | [], _, _, h => h
  | x :: l, acc, hl, h =>
    arcsIn_foldl c l _ (fun z hz => hl z (List.mem_cons_of_mem _ hz))
      (arcsIn_addArcs c x acc (hl x (List.mem_cons_self _ _)) h)

theorem arcsIn_initialArcs (c : Crossword) : arcsIn c (initialArcs c) :=
  arcsIn_foldl c c.vars [] (fun _ h => h) (fun p hp => absurd hp (List.not_mem_nil p))

theorem ac3Loop_isSome (c : Crossword) :
    ∀ (fuel : Nat) (d : Domains) (arcs : List (Variable × Variable)),
      arcsIn c arcs →
      arcs.length + 2 * c.vars.length * totalSize c d + 1 ≤ fuel →
      (ac3Loop c fuel d arcs).isSome := by
  intro fuel
  induction fuel with
  | zero => intro d arcs _ hb; exact absurd hb (by omega)
  | succ fuel ih =>
    intro d arcs hin hb
    match arcs with
    | [] => simp [ac3Loop]
    | (a, b) :: rest =>
      obtain ⟨ha, hbv⟩ := hin (a, b) (List.mem_cons_self _ _)
      have hinrest : arcsIn c rest := fun p hp => hin p (List.mem_cons_of_mem _ hp)
      by_cases h1 : (((revise c d a b).1) a).isEmpty
      · simp [ac3Loop, h1]
      · by_cases h2 : (((revise c (revise c d a b).1 b a).1) b).isEmpty
        · simp [ac3Loop, h1, h2]
        · have hstep : ac3Loop c (fuel + 1) d ((a, b) :: rest) =
              ac3Loop c fuel (revise c (revise c d a b).1 b a).1
                (if (revise c (revise c d a b).1 b a).2 then
                  addArcs c b
                    (if (revise c d a b).2 then addArcs c a rest else rest)
                  else
                    (if (revise c d a b).2 then addArcs c a rest else rest)) := by
            simp [ac3Loop, h1, h2]
          rw [hstep]
          set V := c.vars.length with hV
          set d1 := (revise c d a b).1 with hd1
          set d2 := (revise c d1 b a).1 with hd2
          set arcs1 := if (revise c d a b).2 then addArcs c a rest else rest
            with harcs1
          set arcs2 := if (revise c d1 b a).2 then addArcs c b arcs1 else arcs1
            with harcs2
          have hin1 : arcsIn c arcs1 := by
            rw [harcs1]
            by_cases hr : (revise c d a b).2
            · rw [if_pos hr]; exact arcsIn_addArcs c a rest ha hinrest
            · rw [if_neg hr]; exact hinrest
          have hin2 : arcsIn c arcs2 := by
            rw [harcs2]
            by_cases hr : (revise c d1 b a).2
            · rw [if_pos hr]; exact arcsIn_addArcs c b arcs1 hbv hin1
            · rw [if_neg hr]; exact hin1
          have hlen1 : arcs1.length ≤ rest.length + V := by
            rw [harcs1]
            by_cases hr : (revise c d a b).2
            · rw [if_pos hr]; exact addArcs_length c a rest
            · rw [if_neg hr]; omega
          have hlen2 : arcs2.length ≤ rest.length + 2 * V := by
            rw [harcs2]
            by_cases hr : (revise c d1 b a).2
            · rw [if_pos hr]
              have := addArcs_length c b arcs1
              omega
            · rw [if_neg hr]; omega
          have hle1 : totalSize c d1 ≤ totalSize c d :=
            totalSize_revise_le c d a b
          have hle2 : totalSize c d2 ≤ totalSize c d1 :=
            totalSize_revise_le c d1 b a
          refine ih d2 arcs2 hin2 ?_
          by_cases hchange : (revise c d a b).2 = true ∨ (revise c d1 b a).2 = true
          · have hT : totalSize c d2 + 1 ≤ totalSize c d := by
              rcases hchange with hr | hr
              · have h' := totalSize_revise_lt c d a b ha hr
                rw [← hd1] at h'
                omega
              · have h' := totalSize_revise_lt c d1 b a hbv hr
                rw [← hd2] at h'
                omega
            have hmul : 2 * V * (totalSize c d2 + 1) ≤
                2 * V * totalSize c d := Nat.mul_le_mul_left _ hT
            rw [Nat.mul_add, Nat.mul_one] at hmul
            simp only [List.length_cons] at hb
            omega
          · push_neg at hchange
            obtain ⟨hr1, hr2⟩ := hchange
            have hr1' : (revise c d a b).2 = false := by
              cases hq : (revise c d a b).2
              · rfl
              · exact absurd hq hr1
            have hr2' : (revise c d1 b a).2 = false := by
              cases hq : (revise c d1 b a).2
              · rfl
              · exact absurd hq hr2
            have e1 : totalSize c d1 = totalSize c d := by
              rw [hd1]
              exact totalSize_congr c (revise_unchanged c d a b hr1')
            have e2 : totalSize c d2 = totalSize c d1 := by
              rw [hd2]
              exact totalSize_congr c (revise_unchanged c d1 b a hr2')
            have ea1 : arcs1 = rest := by rw [harcs1, hr1', if_neg]; simp
            have ea2 : arcs2 = arcs1 := by rw [harcs2, hr2', if_neg]; simp
            rw [ea2, ea1, e2, e1]
            simp only [List.length_cons] at hb
            omega

/-- C6: `ac3` terminates on every in-contract input — for any domain
store and any worklist drawn from the crossword's slots (including the
default worklist selected by `arcs = None`), the fuelled loop returns
normally, because domains are finite, only shrink, and arcs are
re-enqueued only when a revision shrank a domain. -/
theorem c6_ac3_terminates (c : Crossword) (d : Domains)
    (arcsOpt : Option (List (Variable × Variable)))
    (h : ∀ p ∈ arcsOpt.getD (initialArcs c),
      p.1 ∈ c.vars ∧ p.2 ∈ c.vars) :
    (ac3 c d arcsOpt).isSome := by
  unfold ac3
  exact ac3Loop_isSome c _ d _ h (le_refl _)

theorem c6_ac3_terminates_witness : (ac3 cUnsat
    (enforce_node_consistency cUnsat (initialDomains cUnsat)) none).isSome :=
  c6_ac3_terminates cUnsat _ none (by decide)

/-- With the default worklist, `ac3` always returns normally, so `ac3All`
is its value. -/
theorem ac3_none_eq (c : Crossword) (d : Domains) :
    ac3 c d none = some (ac3All c d) := by
  have h := ac3Loop_isSome c (fuelBound c d (initialArcs c)) d (initialArcs c)
    (fun p hp => arcsIn_initialArcs c p hp) (le_refl _)
  unfold ac3All ac3 at *
  cases hq : ac3Loop c (fuelBound c d (initialArcs c)) d (initialArcs c) with
  | none => rw [hq] at h; exact Bool.noConfusion h
  | some p => simp [Option.getD, hq]

/-! ### Behavior of `select_unassigned_variable` -/

theorem suvLoop1_mem (d : Domains) (a : Assignment) :
    ∀ (l : List Variable) (m : Nat) (vs : Option (List Variable))
      (m' : Nat) (vs' : List Variable),
      suvLoop1 d a l m vs = some (m', some vs') →
      ∀ v ∈ vs', (v ∈ l ∧ keyMem a v = false) ∨
        (∃ vs₀, vs = some vs₀ ∧ v ∈ vs₀)
  | [], m, vs, m', vs', h, v, hv => by
    simp only [suvLoop1, Option.some.injEq, Prod.mk.injEq] at h
    exact Or.inr ⟨vs', h.2, hv⟩
  | w :: l, m, vs, m', vs', h, v, hv => by
    rw [suvLoop1.eq_def] at h
    simp only at h
    by_cases hk : keyMem a w
    · rw [if_pos hk] at h
      rcases suvLoop1_mem d a l m vs m' vs' h v hv with h' | h'
      · exact Or.inl ⟨List.mem_cons_of_mem _ h'.1, h'.2⟩
      · exact Or.inr h'
    · rw [if_neg hk] at h
      by_cases hlt : (d w).length < m
      · rw [if_pos hlt] at h
        rcases suvLoop1_mem d a l _ _ m' vs' h v hv with h' | h'
        · exact Or.inl ⟨List.mem_cons_of_mem _ h'.1, h'.2⟩
        · obtain ⟨vs₀, hvs₀, hvmem⟩ := h'
          injection hvs₀ with h2
          subst h2
          rcases List.mem_singleton.mp hvmem with rfl
          exact Or.inl ⟨List.mem_cons_self _ _, Bool.eq_false_iff.mpr hk⟩
      · rw [if_neg hlt] at h
        by_cases he : (d w).length = m
        · rw [if_pos he] at h
          cases hvs : vs with
          | none => rw [hvs] at h; exact Option.noConfusion h
          | some l₀ =>
            rw [hvs] at h
            rcases suvLoop1_mem d a l _ _ m' vs' h v hv with h' | h'
            · exact Or.inl ⟨List.mem_cons_of_mem _ h'.1, h'.2⟩
            · obtain ⟨vs₀, hvs₀, hvmem⟩ := h'
              injection hvs₀ with h2
              subst h2
              rcases List.mem_append.mp hvmem with h'' | h''
              · exact Or.inr ⟨l₀, rfl, h''⟩
              · rcases List.mem_singleton.mp h'' with rfl
                exact Or.inl ⟨List.mem_cons_self _ _, Bool.eq_false_iff.mpr hk⟩
        · rw [if_neg he] at h
          rcases suvLoop1_mem d a l m vs m' vs' h v hv with h' | h'
          · exact Or.inl ⟨List.mem_cons_of_mem _ h'.1, h'.2⟩
          · exact Or.inr h'

theorem suvLoop2_mem (c : Crossword) :
    ∀ (l : List Variable) (m : Nat) (ch : Option Variable) (u : Variable),
      suvLoop2 c l m ch = some u → u ∈ l ∨ ch = some u
  | [], _, ch, u, h => Or.inr h
  | v :: l, m, ch, u, h => by
    rw [suvLoop2] at h
    by_cases hlt : m < (neighbors c v).length
    · rw [if_pos hlt] at h
      rcases suvLoop2_mem c l _ _ u h with h' | h'
      · exact Or.inl (List.mem_cons_of_mem _ h')
      · rcases Option.some.injEq _ _ ▸ h' with rfl
        exact Or.inl (List.mem_cons_self _ _)
    · rw [if_neg hlt] at h
      rcases suvLoop2_mem c l _ _ u h with h' | h'
      · exact Or.inl (List.mem_cons_of_mem _ h')
      · exact Or.inr h'

/-- A returned slot is a crossword variable that the assignment does not
bind. -/
theorem select_mem (c : Crossword) (d : Domains) (a : Assignment)
    (u : Variable) (h : select_unassigned_variable c d a = some u) :
    u ∈ c.vars ∧ keyMem a u = false := by
  unfold select_unassigned_variable at h
  cases hres : suvLoop1 d a c.vars (10 ^ 6) none with
  | none => rw [hres] at h; exact Option.noConfusion h
  | some p =>
    rw [hres] at h
    obtain ⟨m', vso⟩ := p
    cases vso with
    | none => exact Option.noConfusion h
    | some vs' =>
      have hin : u ∈ vs' := by
        cases vs' with
        | nil => exact Option.noConfusion h
        | cons v₁ t =>
          cases t with
          | nil =>
            injection h with h2
            subst h2
            exact List.mem_singleton_self _
          | cons v₂ t₂ =>
            rcases suvLoop2_mem c (v₁ :: v₂ :: t₂) 0 none u h with h' | h'
            · exact h'
            · exact Option.noConfusion h'
      rcases suvLoop1_mem d a c.vars (10 ^ 6) none m' vs' hres u hin with h' | h'
      · exact h'
      · obtain ⟨vs₀, hvs₀, -⟩ := h'
        exact Option.noConfusion hvs₀

/-- With an unassigned empty-domain slot in sight, the first selection loop
ends at minimum `0` and collects exactly empty-domain slots, among them the
given one. -/
theorem suvLoop1_zero (d : Domains) (a : Assignment) (x : Variable)
    (hxa : keyMem a x = false) (hdx : d x = []) :
    ∀ (l : List Variable) (m : Nat) (vs : Option (List Variable)),
      (vs = none → m = 10 ^ 6) →
      (∀ v ∈ l, (d v).length < 10 ^ 6) →
      (∀ vs₀, vs = some vs₀ → ∀ z ∈ vs₀, (d z).length = m) →
      ((m = 0 ∧ ∃ vs₀, vs = some vs₀ ∧ x ∈ vs₀) ∨ x ∈ l) →
      ∃ zs, suvLoop1 d a l m vs = some (0, some zs) ∧ x ∈ zs ∧
        ∀ z ∈ zs, d z = []
  | [], m, vs, _, _, hinv, hprog => by
    rcases hprog with ⟨hm, vs₀, hvs, hx⟩ | hx
    · subst hm
      subst hvs
      refine ⟨vs₀, rfl, hx, fun z hz => ?_⟩
      exact List.length_eq_zero.mp (hinv vs₀ rfl z hz)
    · exact absurd hx (List.not_mem_nil x)
  | w :: l, m, vs, hnone, hsmall, hinv, hprog => by
    have hsmall' : ∀ v ∈ l, (d v).length < 10 ^ 6 :=
      fun v hv => hsmall v (List.mem_cons_of_mem _ hv)
    rw [suvLoop1.eq_def]
    simp only
    by_cases hk : keyMem a w
    · rw [if_pos hk]
      refine suvLoop1_zero d a x hxa hdx l m vs hnone hsmall' hinv ?_
      rcases hprog with h1 | hx
      · exact Or.inl h1
      · rcases List.mem_cons.mp hx with rfl | hx'
        · rw [hxa] at hk
          exact absurd hk (Bool.false_ne_true)
        · exact Or.inr hx'
    · rw [if_neg hk]
      by_cases hlt : (d w).length < m
      · rw [if_pos hlt]
        refine suvLoop1_zero d a x hxa hdx l ((d w).length) (some [w])
          (fun h => Option.noConfusion h) hsmall' ?_ ?_
        · intro vs₀ hvs₀ z hz
          injection hvs₀ with h2
          subst h2
          rcases List.mem_singleton.mp hz with rfl
          rfl
        · rcases hprog with ⟨hm, -⟩ | hx
          · subst hm
            exact absurd hlt (by omega)
          · rcases List.mem_cons.mp hx with rfl | hx'
            · exact Or.inl ⟨by rw [hdx]; rfl, [x], rfl, List.mem_singleton_self _⟩
            · exact Or.inr hx'
      · rw [if_neg hlt]
        by_cases he : (d w).length = m
        · rw [if_pos he]
          cases hvs : vs with
          | none =>
            have := hnone hvs
            subst this
            have := hsmall w (List.mem_cons_self _ _)
            omega
          | some l₀ =>
            refine suvLoop1_zero d a x hxa hdx l m (some (l₀ ++ [w]))
              (fun h => Option.noConfusion h) hsmall' ?_ ?_
            · intro vs₀ hvs₀ z hz
              injection hvs₀ with h2
              subst h2
              rcases List.mem_append.mp hz with hz' | hz'
              · exact hinv l₀ hvs z hz'
              · rcases List.mem_singleton.mp hz' with rfl
                exact he
            · rcases hprog with ⟨hm, vs₀, hvs₀, hx⟩ | hx
              · rw [hvs] at hvs₀
                injection hvs₀ with h2
                subst h2
                exact Or.inl ⟨hm, l₀ ++ [w], rfl, List.mem_append_left _ hx⟩
              · rcases List.mem_cons.mp hx with rfl | hx'
                · refine Or.inl ⟨?_, l₀ ++ [x], rfl,
                    List.mem_append_right _ (List.mem_singleton_self _)⟩
                  rw [hdx] at he
                  exact he.symm
                · exact Or.inr hx'
        · rw [if_neg he]
          refine suvLoop1_zero d a x hxa hdx l m vs hnone hsmall' hinv ?_
          rcases hprog with h1 | hx
          · exact Or.inl h1
          · rcases List.mem_cons.mp hx with rfl | hx'
            · rw [hdx] at hlt he
              simp at hlt he
              omega
            · exact Or.inr hx'

theorem suvLoop2_isSome (c : Crossword) :
    ∀ (l : List Variable) (m : Nat) (ch : Option Variable),
      ((∃ z ∈ l, m < (neighbors c z).length) ∨ ch.isSome) →
      (suvLoop2 c l m ch).isSome
  | [], _, ch, h => by
    rcases h with ⟨z, hz, _⟩ | h
    · exact absurd hz (List.not_mem_nil z)
    · simpa [suvLoop2] using h
  | v :: l, m, ch, h => by
    rw [suvLoop2]
    by_cases hlt : m < (neighbors c v).length
    · rw [if_pos hlt]
      exact suvLoop2_isSome c l _ _ (Or.inr rfl)
    · rw [if_neg hlt]
      refine suvLoop2_isSome c l m ch ?_
      rcases h with ⟨z, hz, hzlt⟩ | h
      · rcases List.mem_cons.mp hz with rfl | hz'
        · exact absurd hzlt hlt
        · exact Or.inl ⟨z, hz', hzlt⟩
      · exact Or.inr h

/-- When some unassigned slot has an empty domain and at least one
neighbor, variable selection succeeds and picks an empty-domain slot. -/
theorem select_of_empty (c : Crossword) (d : Domains) (a : Assignment)
    (x : Variable) (hx : x ∈ c.vars) (hxa : keyMem a x = false)
    (hdx : d x = []) (hnb : neighbors c x ≠ [])
    (hsmall : ∀ v ∈ c.vars, (d v).length < 10 ^ 6) :
    ∃ u, select_unassigned_variable c d a = some u ∧ d u = [] := by
  obtain ⟨zs, hres, hxzs, hall⟩ := suvLoop1_zero d a x hxa hdx c.vars (10 ^ 6)
    none (fun _ => rfl) hsmall (fun vs₀ h => Option.noConfusion h) (Or.inr hx)
  unfold select_unassigned_variable
  rw [hres]
  cases zs with
  | nil => exact absurd hxzs (List.not_mem_nil x)
  | cons z₁ t =>
    cases t with
    | nil => exact ⟨z₁, rfl, hall z₁ (List.mem_singleton_self _)⟩
    | cons z₂ t₂ =>
      have hssome := suvLoop2_isSome c (z₁ :: z₂ :: t₂) 0 none
        (Or.inl ⟨x, hxzs, List.length_pos.mpr hnb⟩)
      obtain ⟨u, hu⟩ := Option.isSome_iff_exists.mp hssome
      refine ⟨u, hu, ?_⟩
      rcases suvLoop2_mem c _ _ _ u hu with h' | h'
      · exact hall u h'
      · exact Option.noConfusion h'

/-! ### What `ac3` failure means -/

/-- Every queued arc joins a slot to one of its neighbors. -/
def arcsNb (c : Crossword) (arcs : List (Variable × Variable)) : Prop :=
  ∀ p ∈ arcs, p.1 ∈ c.vars ∧ p.2 ∈ neighbors c p.1

theorem arcsNb_addArcs (c : Crossword) (x : Variable)
    (arcs : List (Variable × Variable)) (hx : x ∈ c.vars)
    (h : arcsNb c arcs) : arcsNb c (addArcs c x arcs) := by
  intro p hp
  rcases addArcs_mem_or c x arcs p hp with h' | h'
  · exact h p h'
  · obtain ⟨he, hn⟩ := h'
    rw [he]
    exact ⟨hx, hn⟩

theorem arcsNb_foldl (c : Crossword) :
    ∀ (l : List Variable) (acc : List (Variable × Variable)),
      (∀ x ∈ l, x ∈ c.vars) → arcsNb c acc →
      arcsNb c (l.foldl (fun acc x => addArcs c x acc) acc)
  | [], _, _, h => h
  | x :: l, acc, hl, h =>
    arcsNb_foldl c l _ (fun z hz => hl z (List.mem_cons_of_mem _ hz))
      (arcsNb_addArcs c x acc (hl x (List.mem_cons_self _ _)) h)

theorem arcsNb_initialArcs (c : Crossword) : arcsNb c (initialArcs c) :=
  arcsNb_foldl c c.vars [] (fun _ h => h) (fun p hp => absurd hp (List.not_mem_nil p))

/-- `ac3Loop` never grows any domain. -/
theorem ac3Loop_sublist (c : Crossword) :
    ∀ (fuel : Nat) (d : Domains) (arcs : List (Variable × Variable))
      (d' : Domains) (res : Bool),
      ac3Loop c fuel d arcs = some (d', res) →
      ∀ v, List.Sublist (d' v) (d v) := by
  intro fuel
  induction fuel with
  | zero =>
    intro d arcs d' res h
    exact absurd h (by simp [ac3Loop])
  | succ fuel ih =>
    intro d arcs d' res h v
    match arcs with
    | [] =>
      simp only [ac3Loop, Option.some.injEq, Prod.mk.injEq] at h
      rw [← h.1]
    | (a, b) :: rest =>
      by_cases h1 : ((revise c d a b).1 a).isEmpty
      · have hd : (revise c d a b).1 = d' := by
          simp only [ac3Loop, h1, if_true, Option.some.injEq, Prod.mk.injEq] at h
          exact h.1
        rw [← hd]
        exact revise_sublist c d a b v
      · by_cases h2 : ((revise c (revise c d a b).1 b a).1 b).isEmpty
        · have hd : (revise c (revise c d a b).1 b a).1 = d' := by
            simp only [ac3Loop, h1, h2, if_true, if_false, Bool.false_eq_true,
              Option.some.injEq, Prod.mk.injEq] at h
            exact h.1
          rw [← hd]
          exact (revise_sublist c _ b a v).trans (revise_sublist c d a b v)
        · have hstep : ac3Loop c fuel (revise c (revise c d a b).1 b a).1
              (if (revise c (revise c d a b).1 b a).2 then
                addArcs c b
                  (if (revise c d a b).2 then addArcs c a rest else rest)
                else
                  (if (revise c d a b).2 then addArcs c a rest else rest)) =
              some (d', res) := by
            rw [← h]
            simp [ac3Loop, h1, h2]
          exact ((ih _ _ d' res hstep v).trans
            (revise_sublist c _ b a v)).trans (revise_sublist c d a b v)

/-- If `ac3Loop` reports failure, some slot with at least one neighbor
ends with an empty domain. -/
theorem ac3Loop_false (c : Crossword) (hwf : WF c) :
    ∀ (fuel : Nat) (d : Domains) (arcs : List (Variable × Variable))
      (d' : Domains),
      arcsNb c arcs → ac3Loop c fuel d arcs = some (d', false) →
      ∃ x ∈ c.vars, d' x = [] ∧ neighbors c x ≠ [] := by
  intro fuel
  induction fuel with
  | zero =>
    intro d arcs d' hnb h
    exact absurd h (by simp [ac3Loop])
  | succ fuel ih =>
    intro d arcs d' hnb h
    match arcs with
    | [] =>
      simp only [ac3Loop, Option.some.injEq, Prod.mk.injEq] at h
      exact absurd h.2 (by simp)
    | (a, b) :: rest =>
      obtain ⟨hav, hbn⟩ := hnb (a, b) (List.mem_cons_self _ _)
      have hrest : arcsNb c rest := fun p hp => hnb p (List.mem_cons_of_mem _ hp)
      by_cases h1 : ((revise c d a b).1 a).isEmpty
      · have hd : (revise c d a b).1 = d' := by
          simp only [ac3Loop, h1, if_true, Option.some.injEq, Prod.mk.injEq] at h
          exact h.1
        refine ⟨a, hav, ?_, List.ne_nil_of_mem hbn⟩
        rw [← hd]
        exact List.isEmpty_iff.mp h1
      · by_cases h2 : ((revise c (revise c d a b).1 b a).1 b).isEmpty
        · have hd : (revise c (revise c d a b).1 b a).1 = d' := by
            simp only [ac3Loop, h1, h2, if_true, if_false, Bool.false_eq_true,
              Option.some.injEq, Prod.mk.injEq] at h
            exact h.1
          obtain ⟨hbv, hba, hovab⟩ := mem_neighbors.mp hbn
          obtain ⟨p, hp⟩ := Option.isSome_iff_exists.mp hovab
          obtain ⟨i, j⟩ := p
          have hsym := (hwf.overlap_spec hav hbv hp).1
          have han : a ∈ neighbors c b :=
            mem_neighbors.mpr ⟨hav, hwf.ne_of_overlap hav hp, by rw [hsym]; rfl⟩
          refine ⟨b, hbv, ?_, List.ne_nil_of_mem han⟩
          rw [← hd]
          exact List.isEmpty_iff.mp h2
        · have hstep : ac3Loop c fuel (revise c (revise c d a b).1 b a).1
              (if (revise c (revise c d a b).1 b a).2 then
                addArcs c b
                  (if (revise c d a b).2 then addArcs c a rest else rest)
                else
                  (if (revise c d a b).2 then addArcs c a rest else rest)) =
              some (d', false) := by
            rw [← h]
            simp [ac3Loop, h1, h2]
          have hbv : b ∈ c.vars := neighbors_subset hbn
          have hnb1 : arcsNb c
              (if (revise c d a b).2 then addArcs c a rest else rest) := by
            by_cases hr : (revise c d a b).2
            · rw [if_pos hr]; exact arcsNb_addArcs c a rest hav hrest
            · rw [if_neg hr]; exact hrest
          have hnb2 : arcsNb c
              (if (revise c (revise c d a b).1 b a).2 then
                addArcs c b
                  (if (revise c d a b).2 then addArcs c a rest else rest)
                else
                  (if (revise c d a b).2 then addArcs c a rest else rest)) := by
            by_cases hr : (revise c (revise c d a b).1 b a).2
            · rw [if_pos hr]; exact arcsNb_addArcs c b _ hbv hnb1
            · rw [if_neg hr]; exact hnb1
          exact ih _ _ d' hnb2 hstep

theorem assignment_complete_empty_false (c : Crossword) (x : Variable)
    (hx : x ∈ c.vars) : assignment_complete c [] = false := by
  unfold assignment_complete
  cases hq : c.vars.all (fun v => keyMem [] v) with
  | false => rfl
  | true =>
    have := List.all_eq_true.mp hq x hx
    exact absurd this (by simp [keyMem, lookupA])

/-- When selection picks a slot with an empty domain, the candidate loop
runs over no values and `backtrack` returns `None`. -/
theorem backtrackFuel_empty_domain (c : Crossword) (d : Domains)
    (fuel : Nat) (a : Assignment)
    (hcomp : assignment_complete c a = false)
    (u : Variable) (hu : select_unassigned_variable c d a = some u)
    (hdu : d u = []) :
    backtrackFuel c d (fuel + 1) a = some none := by
  rw [backtrackFuel]
  rw [hcomp, hu]
  simp only [Bool.false_eq_true, if_false, order_domain_values, hdu, tryList]

/-- C1 (amended): if `ac3` reports failure during `solve`'s pre-pass, the
Search Engine is still invoked — but it immediately fails on the emptied
domain, so `solve`'s overall result is the Unsatisfiable signal. -/
theorem c1_amended_solve_unsat (c : Crossword) (hwf : WF c)
    (hwords : c.words.length < 10 ^ 6)
    (hfail : (ac3 c (enforce_node_consistency c (initialDomains c))
      none).map Prod.snd = some false) :
    solve c = some none := by
  set d1 := enforce_node_consistency c (initialDomains c) with hd1
  cases heq : ac3 c d1 none with
  | none => rw [heq] at hfail; exact Option.noConfusion hfail
  | some p =>
    obtain ⟨d2, bres⟩ := p
    have hb : bres = false := by
      rw [heq] at hfail
      simpa using hfail
    subst hb
    have hex : ∃ x ∈ c.vars, d2 x = [] ∧ neighbors c x ≠ [] := by
      unfold ac3 at heq
      exact ac3Loop_false c hwf _ d1 _ d2 (arcsNb_initialArcs c) heq
    obtain ⟨x, hxv, hdx, hnb⟩ := hex
    have hsmall : ∀ v ∈ c.vars, (d2 v).length < 10 ^ 6 := by
      intro v hv
      have hsub : List.Sublist (d2 v) (d1 v) := by
        unfold ac3 at heq
        exact ac3Loop_sublist c _ d1 _ d2 false heq v
      have hsub2 : (d1 v).length ≤ c.words.length := by
        rw [hd1]
        unfold enforce_node_consistency initialDomains
        by_cases hv' : v ∈ c.vars
        · rw [if_pos hv']
          exact (List.filter_sublist _).length_le
        · rw [if_neg hv']
      have := hsub.length_le
      omega
    unfold solve
    rw [← hd1, heq]
    show backtrack c d2 [] = some none
    obtain ⟨u, hu, hdu⟩ := select_of_empty c d2 [] x hxv
      (by simp [keyMem, lookupA]) hdx hnb hsmall
    unfold backtrack
    exact backtrackFuel_empty_domain c d2 _ []
      (assignment_complete_empty_false c x hxv) u hu hdu

theorem c1_amended_solve_unsat_witness :
    WF cUnsat ∧ cUnsat.words.length < 10 ^ 6 ∧ solve cUnsat = some none :=
  ⟨by decide, by decide,
   c1_amended_solve_unsat cUnsat (by decide) (by decide) (by decide)⟩

/-! ### Soundness of `backtrack` -/

theorem lookupA_mem : ∀ (a : Assignment) (v : Variable) (w : Word),
    lookupA a v = some w → (v, w) ∈ a
  | [], _, _, h => Option.noConfusion h
  | (k, w') :: rest, v, w, h => by
    rw [lookupA] at h
    by_cases hk : k = v
    · rw [if_pos hk] at h
      injection h with h2
      subst hk
      subst h2
      exact List.mem_cons_self _ _
    · rw [if_neg hk] at h
      exact List.mem_cons_of_mem _ (lookupA_mem rest v w h)

theorem keyMem_false_iff (a : Assignment) (v : Variable) :
    keyMem a v = false ↔ v ∉ a.map Prod.fst := by
  induction a with
  | nil => simp [keyMem, lookupA]
  | cons p rest ih =>
    obtain ⟨k, w⟩ := p
    by_cases hk : k = v
    · subst hk
      simp [keyMem, lookupA]
    · simp only [keyMem, lookupA, if_neg hk, List.map_cons, List.mem_cons]
      rw [← keyMem] at *
      constructor
      · intro hf hmem
        rcases hmem with h' | h'
        · exact hk h'.symm
        · exact (ih.mp hf) h'
      · intro hmem
        exact ih.mpr (fun h' => hmem (Or.inr h'))

theorem consistent_entry (c : Crossword) (a : Assignment)
    (h : consistent c a = true) {x : Variable} {w : Word}
    (hmem : (x, w) ∈ a) :
    x.length = w.length ∧
    (∀ n ∈ neighbors c x, ∀ wn, lookupA a n = some wn →
      ∀ i j, c.overlaps x n = some (i, j) → w.getD i '?' = wn.getD j '?') ∧
    (a.map Prod.snd).count w ≤ 1 := by
  unfold consistent at h
  have hp := List.all_eq_true.mp h (x, w) hmem
  simp only [Bool.and_eq_true, decide_eq_true_eq] at hp
  obtain ⟨⟨hlen, hnb⟩, hcount⟩ := hp
  refine ⟨hlen, ?_, hcount⟩
  intro n hn wn hwn i j ho
  have := List.all_eq_true.mp hnb n hn
  rw [hwn] at this
  rw [ho] at this
  simpa [matchAt] using this

theorem count_snd_ge_two :
    ∀ (r : Assignment) (p q : Variable × Word), p ∈ r → q ∈ r → p ≠ q →
      p.2 = q.2 → 2 ≤ (r.map Prod.snd).count p.2
  | [], p, _, hp, _, _, _ => absurd hp (List.not_mem_nil p)
  | e :: t, p, q, hp, hq, hne, heq => by
    simp only [List.map_cons, List.count_cons]
    rcases List.mem_cons.mp hp with rfl | hp'
    · have hq' : q ∈ t := by
        rcases List.mem_cons.mp hq with h' | h'
        · exact absurd h'.symm hne
        · exact h'
      have h1 : 1 ≤ (t.map Prod.snd).count p.2 := by
        rw [heq]
        exact List.count_pos_iff_mem.mpr (List.mem_map_of_mem Prod.snd hq')
      simp only [beq_self_eq_true, if_true]
      omega
    · rcases List.mem_cons.mp hq with rfl | hq'
      · have h1 : 1 ≤ (t.map Prod.snd).count p.2 :=
          List.count_pos_iff_mem.mpr (List.mem_map_of_mem Prod.snd hp')
        rw [heq]
        simp only [beq_self_eq_true, if_true]
        rw [← heq]
        omega
      · have hrec := count_snd_ge_two t p q hp' hq' hne heq
        by_cases hb : (e.2 == p.2) = true
        · rw [if_pos hb]
          omega
        · rw [if_neg hb]
          omega

theorem tryList_sound (c : Crossword)
    (bt : Assignment → Option (Option Assignment))
    (hbt : ∀ a2 r, (a2.map Prod.fst).Nodup → consistent c a2 = true →
      bt a2 = some (some r) →
      assignment_complete c r = true ∧ consistent c r = true)
    (a : Assignment) (var : Variable)
    (hnd : (a.map Prod.fst).Nodup) (hnk : keyMem a var = false) :
    ∀ (ws : List Word) (r : Assignment),
      tryList c bt a var ws = some (some r) →
      assignment_complete c r = true ∧ consistent c r = true
  | [], r, h => by
    rw [tryList] at h
    injection h with h2
    exact Option.noConfusion h2
  | w :: ws, r, h => by
    rw [tryList] at h
    by_cases hc : consistent c (a ++ [(var, w)])
    · rw [if_pos hc] at h
      cases hb : bt (a ++ [(var, w)]) with
      | none => rw [hb] at h; exact Option.noConfusion h
      | some o =>
        cases o with
        | some r' =>
          rw [hb] at h
          injection h with h2
          injection h2 with h3
          subst h3
          have hnd2 : ((a ++ [(var, w)]).map Prod.fst).Nodup := by
            rw [List.map_append]
            rw [List.nodup_append]
            refine ⟨hnd, List.nodup_singleton _, ?_⟩
            intro z hz hz'
            rcases List.mem_singleton.mp hz' with rfl
            exact (keyMem_false_iff a z).mp hnk hz
          exact hbt _ _ hnd2 hc hb
        | none =>
          rw [hb] at h
          exact tryList_sound c bt hbt a var hnd hnk ws r h
    · rw [if_neg hc] at h
      exact tryList_sound c bt hbt a var hnd hnk ws r h

theorem backtrackFuel_sound (c : Crossword) (d : Domains) :
    ∀ (fuel : Nat) (a r : Assignment),
      (a.map Prod.fst).Nodup → consistent c a = true →
      backtrackFuel c d fuel a = some (some r) →
      assignment_complete c r = true ∧ consistent c r = true := by
  intro fuel
  induction fuel with
  | zero =>
    intro a r _ _ h
    exact absurd h (by simp [backtrackFuel])
  | succ fuel ih =>
    intro a r hnd hcons h
    rw [backtrackFuel] at h
    by_cases hcomp : assignment_complete c a
    · rw [if_pos hcomp] at h
      injection h with h2
      injection h2 with h3
      subst h3
      exact ⟨hcomp, hcons⟩
    · rw [if_neg hcomp] at h
      cases hsel : select_unassigned_variable c d a with
      | none => rw [hsel] at h; exact Option.noConfusion h
      | some var =>
        rw [hsel] at h
        have hvar := select_mem c d a var hsel
        exact tryList_sound c (backtrackFuel c d fuel)
          (fun a2 r2 => ih a2 r2) a var hnd hvar.2 _ r h

/-- C2: any assignment returned by `backtrack` from the empty assignment
binds every slot, with every word's length equal to its slot's length,
agreeing characters on every overlap, and no word bound to two distinct
slots. -/
theorem c2_backtrack_success (c : Crossword) (hwf : WF c) (d : Domains)
    (r : Assignment) (h : backtrack c d [] = some (some r)) :
    (∀ v ∈ c.vars, ∃ w, lookupA r v = some w) ∧
    (∀ x w, lookupA r x = some w → w.length = x.length) ∧
    (∀ x ∈ c.vars, ∀ y ∈ c.vars, ∀ i j, c.overlaps x y = some (i, j) →
      ∀ wx wy, lookupA r x = some wx → lookupA r y = some wy →
        wx.getD i '?' = wy.getD j '?') ∧
    (∀ x y wx wy, x ≠ y → lookupA r x = some wx → lookupA r y = some wy →
      wx ≠ wy) := by
  obtain ⟨hcomp, hcons⟩ := backtrackFuel_sound c d (c.vars.length + 1) [] r
    (by simp) (by simp [consistent]) h
  refine ⟨?_, ?_, ?_, ?_⟩
  · intro v hv
    have := List.all_eq_true.mp hcomp v hv
    exact Option.isSome_iff_exists.mp this
  · intro x w hw
    exact (consistent_entry c r hcons (lookupA_mem r x w hw)).1.symm
  · intro x hx y hy i j ho wx wy hwx hwy
    have hmem := lookupA_mem r x wx hwx
    have hne : x ≠ y := hwf.ne_of_overlap hx ho
    have hynb : y ∈ neighbors c x :=
      mem_neighbors.mpr ⟨hy, hne.symm, by rw [ho]; rfl⟩
    exact (consistent_entry c r hcons hmem).2.1 y hynb wy hwy i j ho
  · intro x y wx wy hne hwx hwy heq
    subst heq
    have hmx := lookupA_mem r x wx hwx
    have hmy := lookupA_mem r y wx hwy
    have hcount := (consistent_entry c r hcons hmx).2.2
    have h2 := count_snd_ge_two r (x, wx) (y, wx) hmx hmy
      (fun hq => hne (congrArg Prod.fst hq)) rfl
    simp only at h2 hcount
    omega

theorem c2_backtrack_success_witness :
    WF cSat ∧
    backtrack cSat (enforce_node_consistency cSat (initialDomains cSat)) [] =
      some (some [(varA, catW), (varB, arcW)]) ∧
    (∃ w, lookupA [(varA, catW), (varB, arcW)] varA = some w) :=
  ⟨by decide, by decide,
   (c2_backtrack_success cSat (by decide)
      (enforce_node_consistency cSat (initialDomains cSat))
      [(varA, catW), (varB, arcW)] (by decide)).1 varA (by decide)⟩

/-! ### Arc consistency established by `ac3` -/

/-- The arc `(x, y)` is consistent: every word in `x`'s domain has a
partner in `y`'s domain agreeing on the overlap characters. -/
def arcCons (c : Crossword) (d : Domains) (x y : Variable) : Prop :=
  ∀ i j, c.overlaps x y = some (i, j) →
    ∀ wx ∈ d x, ∃ wy ∈ d y, wx.getD i '?' = wy.getD j '?'

theorem arcCons_transport {c : Crossword} {d d' : Domains} {x y : Variable}
    (hx : d' x = d x) (hy : d' y = d y) (h : arcCons c d x y) :
    arcCons c d' x y := by
  intro i j ho wx hwx
  rw [hx] at hwx
  obtain ⟨wy, hwy, hm⟩ := h i j ho wx hwx
  exact ⟨wy, by rw [hy]; exact hwy, hm⟩

theorem isEmpty_false_of_ne_nil {α : Type} {l : List α} (h : l ≠ []) :
    l.isEmpty = false := by
  cases l with
  | nil => exact absurd rfl h
  | cons x t => rfl

theorem ne_nil_of_isEmpty_false {α : Type} {l : List α}
    (h : l.isEmpty = false) : l ≠ [] := by
  intro hq
  subst hq
  exact Bool.noConfusion h

/-- The worklist invariant of AC-3: every neighboring ordered pair is
either still queued (in one orientation) or already consistent with a
non-empty source domain. -/
def Inv (c : Crossword) (d : Domains)
    (arcs : List (Variable × Variable)) : Prop :=
  ∀ x ∈ c.vars, ∀ y ∈ c.vars, (c.overlaps x y).isSome →
    (x, y) ∈ arcs ∨ (y, x) ∈ arcs ∨ (arcCons c d x y ∧ d x ≠ [])

theorem foldl_addArcs_sub_outer (c : Crossword) :
    ∀ (l : List Variable) (acc : List (Variable × Variable)),
      acc ⊆ l.foldl (fun acc x => addArcs c x acc) acc
  | [], _ => fun _ h => h
  | z :: l, acc =>
    List.Subset.trans (addArcs_sub c z acc) (foldl_addArcs_sub_outer c l _)

theorem foldl_initial_covers (c : Crossword) :
    ∀ (l : List Variable) (acc : List (Variable × Variable))
      (x : Variable), x ∈ l → ∀ y ∈ neighbors c x,
      (x, y) ∈ l.foldl (fun acc x => addArcs c x acc) acc ∨
      (y, x) ∈ l.foldl (fun acc x => addArcs c x acc) acc
  | z :: l, acc, x, hx, y, hy => by
    rcases List.mem_cons.mp hx with rfl | hx'
    · rcases addArcs_covers c x y acc hy with h | h
      · exact Or.inl (foldl_addArcs_sub_outer c l _ h)
      · exact Or.inr (foldl_addArcs_sub_outer c l _ h)
    · exact foldl_initial_covers c l _ x hx' y hy

theorem initialArcs_covers (c : Crossword) (x : Variable) (hx : x ∈ c.vars)
    (y : Variable) (hy : y ∈ neighbors c x) :
    (x, y) ∈ initialArcs c ∨ (y, x) ∈ initialArcs c :=
  foldl_initial_covers c c.vars [] x hx y hy

theorem inv_initialArcs (c : Crossword) (hwf : WF c) (d : Domains) :
    Inv c d (initialArcs c) := by
  intro x hx y hy hov
  have hxy : x ≠ y := by
    obtain ⟨p, hp⟩ := Option.isSome_iff_exists.mp hov
    exact hwf.ne_of_overlap hx hp
  have hyn : y ∈ neighbors c x := mem_neighbors.mpr ⟨hy, hxy.symm, hov⟩
  rcases initialArcs_covers c x hx y hyn with h | h
  · exact Or.inl h
  · exact Or.inr (Or.inl h)

/-- One iteration of the worklist loop preserves the invariant. -/
theorem inv_preserved (c : Crossword) (hwf : WF c) (d : Domains)
    (a b : Variable) (rest : List (Variable × Variable))
    (hav : a ∈ c.vars) (hbv : b ∈ c.vars) (hab : a ≠ b)
    (hInv : Inv c d ((a, b) :: rest))
    (h1 : ((revise c d a b).1 a).isEmpty = false)
    (h2 : ((revise c (revise c d a b).1 b a).1 b).isEmpty = false) :
    Inv c (revise c (revise c d a b).1 b a).1
      (if (revise c (revise c d a b).1 b a).2 then
        addArcs c b (if (revise c d a b).2 then addArcs c a rest else rest)
        else (if (revise c d a b).2 then addArcs c a rest else rest)) := by
  set d1 := (revise c d a b).1 with hd1def
  set d2 := (revise c d1 b a).1 with hd2def
  set arcs1 := if (revise c d a b).2 then addArcs c a rest else rest
    with harcs1
  set arcs2 := if (revise c d1 b a).2 then addArcs c b arcs1 else arcs1
    with harcs2
  have f1 : ∀ v, v ≠ a → d1 v = d v := fun v hv => revise_apply_ne c d a b v hv
  have f2 : ∀ v, v ≠ b → d2 v = d1 v := fun v hv => revise_apply_ne c d1 b a v hv
  have hd1b : d1 b = d b := f1 b (Ne.symm hab)
  have hd2a : d2 a = d1 a := f2 a hab
  have hne1 : d1 a ≠ [] := ne_nil_of_isEmpty_false h1
  have hne2 : d2 b ≠ [] := ne_nil_of_isEmpty_false h2
  have sub1 : rest ⊆ arcs1 := by
    rw [harcs1]
    by_cases hr : (revise c d a b).2
    · rw [if_pos hr]; exact addArcs_sub c a rest
    · rw [if_neg hr]; exact fun _ h => h
  have sub2 : arcs1 ⊆ arcs2 := by
    rw [harcs2]
    by_cases hr : (revise c d1 b a).2
    · rw [if_pos hr]; exact addArcs_sub c b arcs1
    · rw [if_neg hr]; exact fun _ h => h
  have ha_cov : (revise c d a b).2 = true → ∀ n ∈ neighbors c a,
      (a, n) ∈ arcs2 ∨ (n, a) ∈ arcs2 := by
    intro hr n hn
    have : (a, n) ∈ arcs1 ∨ (n, a) ∈ arcs1 := by
      rw [harcs1, if_pos hr]
      exact addArcs_covers c a n rest hn
    rcases this with h | h
    · exact Or.inl (sub2 h)
    · exact Or.inr (sub2 h)
  have hb_cov : (revise c d1 b a).2 = true → ∀ n ∈ neighbors c b,
      (b, n) ∈ arcs2 ∨ (n, b) ∈ arcs2 := by
    intro hr n hn
    rw [harcs2, if_pos hr]
    exact addArcs_covers c b n arcs1 hn
  intro x hx y hy hov
  obtain ⟨⟨i, j⟩, hij⟩ := Option.isSome_iff_exists.mp hov
  have hxy : x ≠ y := hwf.ne_of_overlap hx hij
  by_cases hxa : x = a
  · subst hxa
    by_cases hyb : y = b
    · subst hyb
      by_cases hr2 : (revise c d1 y x).2 = true
      · have hanb : x ∈ neighbors c y := by
          refine mem_neighbors.mpr ⟨hx, hxy, ?_⟩
          rw [(hwf.overlap_spec hx hy hij).1]
          rfl
        rcases hb_cov hr2 x hanb with h | h
        · exact Or.inr (Or.inl h)
        · exact Or.inl h
      · have hd2all : ∀ v, d2 v = d1 v :=
          revise_unchanged c d1 y x (Bool.eq_false_iff.mpr hr2)
        refine Or.inr (Or.inr ⟨?_, by rw [hd2a]; exact hne1⟩)
        intro i' j' ho' wx hwx
        rw [hd2a] at hwx
        obtain ⟨wy, hwy, hm⟩ := revise_post c d x y ho' wx hwx
        refine ⟨wy, ?_, hm⟩
        rw [hd2all y, hd1b]
        exact hwy
    · have hya : y ≠ x := Ne.symm hxy
      by_cases hr1 : (revise c d x b).2 = true
      · have hyn : y ∈ neighbors c x := mem_neighbors.mpr ⟨hy, hya, hov⟩
        rcases ha_cov hr1 y hyn with h | h
        · exact Or.inl h
        · exact Or.inr (Or.inl h)
      · have hd1all : ∀ v, d1 v = d v :=
          revise_unchanged c d x b (Bool.eq_false_iff.mpr hr1)
        have hdx2 : d2 x = d x := by rw [hd2a, hd1all x]
        have hdy2 : d2 y = d y := by rw [f2 y hyb, hd1all y]
        rcases hInv x hx y hy hov with h | h | h
        · rcases List.mem_cons.mp h with heq | h'
          · injection heq with e1 e2
            exact absurd e2 hyb
          · exact Or.inl (sub2 (sub1 h'))
        · rcases List.mem_cons.mp h with heq | h'
          · injection heq with e1 e2
            exact absurd e1 hya
          · exact Or.inr (Or.inl (sub2 (sub1 h')))
        · exact Or.inr (Or.inr ⟨arcCons_transport hdx2 hdy2 h.1,
            by rw [hdx2]; exact h.2⟩)
  · by_cases hxb : x = b
    · subst hxb
      by_cases hya : y = a
      · subst hya
        refine Or.inr (Or.inr ⟨?_, hne2⟩)
        intro i' j' ho' wx hwx
        obtain ⟨wy, hwy, hm⟩ := revise_post c d1 x y ho' wx hwx
        refine ⟨wy, ?_, hm⟩
        rw [hd2a]
        exact hwy
      · by_cases hr2 : (revise c d1 x a).2 = true
        · have hyn : y ∈ neighbors c x := mem_neighbors.mpr ⟨hy, Ne.symm hxy, hov⟩
          rcases hb_cov hr2 y hyn with h | h
          · exact Or.inl h
          · exact Or.inr (Or.inl h)
        · have hd2all : ∀ v, d2 v = d1 v :=
            revise_unchanged c d1 x a (Bool.eq_false_iff.mpr hr2)
          have hdx2 : d2 x = d x := by rw [hd2all x, hd1b]
          have hdy2 : d2 y = d y := by rw [hd2all y, f1 y hya]
          rcases hInv x hx y hy hov with h | h | h
          · rcases List.mem_cons.mp h with heq | h'
            · injection heq with e1 e2
              exact absurd e1 hxa
            · exact Or.inl (sub2 (sub1 h'))
          · rcases List.mem_cons.mp h with heq | h'
            · injection heq with e1 e2
              exact absurd e1 hya
            · exact Or.inr (Or.inl (sub2 (sub1 h')))
          · exact Or.inr (Or.inr ⟨arcCons_transport hdx2 hdy2 h.1,
              by rw [hdx2]; exact h.2⟩)
    · have hdx2 : d2 x = d x := by rw [f2 x hxb, f1 x hxa]
      by_cases hya : y = a
      · subst hya
        by_cases hr1 : (revise c d y b).2 = true
        · have hxn : x ∈ neighbors c y := by
            refine mem_neighbors.mpr ⟨hx, hxy, ?_⟩
            rw [(hwf.overlap_spec hx hy hij).1]
            rfl
          rcases ha_cov hr1 x hxn with h | h
          · exact Or.inr (Or.inl h)
          · exact Or.inl h
        · have hd1all : ∀ v, d1 v = d v :=
            revise_unchanged c d y b (Bool.eq_false_iff.mpr hr1)
          have hdy2 : d2 y = d y := by rw [hd2a, hd1all y]
          rcases hInv x hx y hy hov with h | h | h
          · rcases List.mem_cons.mp h with heq | h'
            · injection heq with e1 e2
              exact absurd e1 hxa
            · exact Or.inl (sub2 (sub1 h'))
          · rcases List.mem_cons.mp h with heq | h'
            · injection heq with e1 e2
              exact absurd e2 hxb
            · exact Or.inr (Or.inl (sub2 (sub1 h')))
          · exact Or.inr (Or.inr ⟨arcCons_transport hdx2 hdy2 h.1,
              by rw [hdx2]; exact h.2⟩)
      · by_cases hyb : y = b
        · subst hyb
          by_cases hr2 : (revise c d1 y a).2 = true
          · have hxn : x ∈ neighbors c y := by
              refine mem_neighbors.mpr ⟨hx, hxy, ?_⟩
              rw [(hwf.overlap_spec hx hy hij).1]
              rfl
            rcases hb_cov hr2 x hxn with h | h
            · exact Or.inr (Or.inl h)
            · exact Or.inl h
          · have hd2all : ∀ v, d2 v = d1 v :=
              revise_unchanged c d1 y a (Bool.eq_false_iff.mpr hr2)
            have hdy2 : d2 y = d y := by rw [hd2all y, hd1b]
            rcases hInv x hx y hy hov with h | h | h
            · rcases List.mem_cons.mp h with heq | h'
              · injection heq with e1 e2
                exact absurd e1 hxa
              · exact Or.inl (sub2 (sub1 h'))
            · rcases List.mem_cons.mp h with heq | h'
              · injection heq with e1 e2
                exact absurd e1 hya
              · exact Or.inr (Or.inl (sub2 (sub1 h')))
            · exact Or.inr (Or.inr ⟨arcCons_transport hdx2 hdy2 h.1,
                by rw [hdx2]; exact h.2⟩)
        · have hdy2 : d2 y = d y := by rw [f2 y hyb, f1 y hya]
          rcases hInv x hx y hy hov with h | h | h
          · rcases List.mem_cons.mp h with heq | h'
            · injection heq with e1 e2
              exact absurd e1 hxa
            · exact Or.inl (sub2 (sub1 h'))
          · rcases List.mem_cons.mp h with heq | h'
            · injection heq with e1 e2
              exact absurd e2 hxb
            · exact Or.inr (Or.inl (sub2 (sub1 h')))
          · exact Or.inr (Or.inr ⟨arcCons_transport hdx2 hdy2 h.1,
              by rw [hdx2]; exact h.2⟩)

/-- If the worklist loop drains successfully, every neighboring pair ends
arc-consistent with a non-empty source domain. -/
theorem ac3Loop_true_inv (c : Crossword) (hwf : WF c) :
    ∀ (fuel : Nat) (d : Domains) (arcs : List (Variable × Variable))
      (d' : Domains),
      arcsNb c arcs → Inv c d arcs →
      ac3Loop c fuel d arcs = some (d', true) →
      ∀ x ∈ c.vars, ∀ y ∈ c.vars, (c.overlaps x y).isSome →
        arcCons c d' x y ∧ d' x ≠ [] := by
  intro fuel
  induction fuel with
  | zero =>
    intro d arcs d' _ _ h
    exact absurd h (by simp [ac3Loop])
  | succ fuel ih =>
    intro d arcs d' hnb hInv h
    match arcs with
    | [] =>
      simp only [ac3Loop, Option.some.injEq, Prod.mk.injEq] at h
      intro x hx y hy hov
      rcases hInv x hx y hy hov with h' | h' | h'
      · exact absurd h' (List.not_mem_nil _)
      · exact absurd h' (List.not_mem_nil _)
      · rw [← h.1]
        exact h'
    | (a, b) :: rest =>
      obtain ⟨hav, hbn⟩ := hnb (a, b) (List.mem_cons_self _ _)
      have hbv : b ∈ c.vars := neighbors_subset hbn
      have hab : a ≠ b := Ne.symm (mem_neighbors.mp hbn).2.1
      have hrest : arcsNb c rest := fun p hp => hnb p (List.mem_cons_of_mem _ hp)
      by_cases h1 : ((revise c d a b).1 a).isEmpty
      · exfalso
        simp only [ac3Loop, h1, if_true, Option.some.injEq, Prod.mk.injEq] at h
        exact Bool.noConfusion h.2
      · by_cases h2 : ((revise c (revise c d a b).1 b a).1 b).isEmpty
        · exfalso
          simp only [ac3Loop, h1, h2, if_true, if_false, Bool.false_eq_true,
            Option.some.injEq, Prod.mk.injEq] at h
          exact h.2
        · have hstep : ac3Loop c fuel (revise c (revise c d a b).1 b a).1
              (if (revise c (revise c d a b).1 b a).2 then
                addArcs c b
                  (if (revise c d a b).2 then addArcs c a rest else rest)
                else
                  (if (revise c d a b).2 then addArcs c a rest else rest)) =
              some (d', true) := by
            rw [← h]
            simp [ac3Loop, h1, h2]
          have hnb2 : arcsNb c
              (if (revise c (revise c d a b).1 b a).2 then
                addArcs c b
                  (if (revise c d a b).2 then addArcs c a rest else rest)
                else
                  (if (revise c d a b).2 then addArcs c a rest else rest)) := by
            have hnb1 : arcsNb c
                (if (revise c d a b).2 then addArcs c a rest else rest) := by
              by_cases hr : (revise c d a b).2
              · rw [if_pos hr]; exact arcsNb_addArcs c a rest hav hrest
              · rw [if_neg hr]; exact hrest
            by_cases hr : (revise c (revise c d a b).1 b a).2
            · rw [if_pos hr]; exact arcsNb_addArcs c b _ hbv hnb1
            · rw [if_neg hr]; exact hnb1
          have hInv2 := inv_preserved c hwf d a b rest hav hbv hab hInv
            (Bool.eq_false_iff.mpr h1) (Bool.eq_false_iff.mpr h2)
          exact ih _ _ d' hnb2 hInv2 hstep

/-- After a successful default-worklist run of `ac3`, every neighboring
pair is arc-consistent and every arc endpoint has a non-empty domain. -/
theorem ac3All_true_H (c : Crossword) (hwf : WF c) (d : Domains)
    (h : (ac3All c d).2 = true) :
    ∀ x ∈ c.vars, ∀ y ∈ c.vars, (c.overlaps x y).isSome →
      arcCons c (ac3All c d).1 x y ∧ (ac3All c d).1 x ≠ [] := by
  have hrun : ac3Loop c (fuelBound c d (initialArcs c)) d (initialArcs c) =
      some (ac3All c d) := ac3_none_eq c d
  have hrun2 : ac3Loop c (fuelBound c d (initialArcs c)) d (initialArcs c) =
      some ((ac3All c d).1, true) := by
    rw [hrun]
    rw [← h]
  exact ac3Loop_true_inv c hwf _ d (initialArcs c) (ac3All c d).1
    (arcsNb_initialArcs c) (inv_initialArcs c hwf d) hrun2

/-- C3: if `ac3` with the default worklist returns `True`, then for every
ordered pair of slots with an overlap, every word left in the first slot's
domain has a partner in the second slot's domain agreeing on the overlap
characters (and symmetrically, by instantiating the pair both ways). -/
theorem c3_ac3_arc_consistent (c : Crossword) (hwf : WF c) (d : Domains)
    (h : (ac3All c d).2 = true) :
    ∀ x ∈ c.vars, ∀ y ∈ c.vars, ∀ i j, c.overlaps x y = some (i, j) →
      ∀ wx ∈ (ac3All c d).1 x, ∃ wy ∈ (ac3All c d).1 y,
        wx.getD i '?' = wy.getD j '?' := by
  intro x hx y hy i j hij wx hwx
  have hH := ac3All_true_H c hwf d h x hx y hy (by rw [hij]; rfl)
  exact hH.1 i j hij wx hwx

theorem c3_ac3_arc_consistent_witness :
    WF cSat ∧ (ac3All cSat (initialDomains cSat)).2 = true ∧
    (∃ wy ∈ (ac3All cSat (initialDomains cSat)).1 varB,
      catW.getD 1 '?' = wy.getD 0 '?') :=
  ⟨by decide, by decide,
   c3_ac3_arc_consistent cSat (by decide) (initialDomains cSat) (by decide)
     varA (by decide) varB (by decide) 1 0 (by decide) catW (by decide)⟩

/-- On a store in which every neighboring pair is already arc-consistent
with non-empty domains, the worklist loop drains without changing any
domain and reports success. -/
theorem ac3Loop_consistent_run (c : Crossword) (hwf : WF c) :
    ∀ (fuel : Nat) (arcs : List (Variable × Variable)) (d : Domains),
      arcs.length + 1 ≤ fuel → arcsNb c arcs →
      (∀ x ∈ c.vars, ∀ y ∈ c.vars, (c.overlaps x y).isSome →
        arcCons c d x y ∧ d x ≠ []) →
      ∃ d', ac3Loop c fuel d arcs = some (d', true) ∧ ∀ v, d' v = d v := by
  intro fuel
  induction fuel with
  | zero =>
    intro arcs d hb
    exact absurd hb (by omega)
  | succ fuel ih =>
    intro arcs d hb hnb H
    match arcs with
    | [] => exact ⟨d, by simp [ac3Loop], fun v => rfl⟩
    | (a, b) :: rest =>
      obtain ⟨hav, hbn⟩ := hnb (a, b) (List.mem_cons_self _ _)
      have hbv : b ∈ c.vars := neighbors_subset hbn
      have hovab : (c.overlaps a b).isSome := (mem_neighbors.mp hbn).2.2
      obtain ⟨⟨i, j⟩, hij⟩ := Option.isSome_iff_exists.mp hovab
      have Hab := H a hav b hbv hovab
      have hr1 := revise_of_consistent c d a b hij (Hab.1 i j hij)
      have he1 : ∀ v, (revise c d a b).1 v = d v :=
        revise_unchanged c d a b hr1.1
      have h1 : ((revise c d a b).1 a).isEmpty = false := by
        rw [he1 a]
        exact isEmpty_false_of_ne_nil Hab.2
      have hji : c.overlaps b a = some (j, i) :=
        (hwf.overlap_spec hav hbv hij).1
      have hovba : (c.overlaps b a).isSome := by rw [hji]; rfl
      have Hba := H b hbv a hav hovba
      have hc1 : arcCons c (revise c d a b).1 b a :=
        arcCons_transport (he1 b) (he1 a) Hba.1
      have hr2 := revise_of_consistent c (revise c d a b).1 b a hji
        (hc1 j i hji)
      have he2 : ∀ v, (revise c (revise c d a b).1 b a).1 v =
          (revise c d a b).1 v :=
        revise_unchanged c (revise c d a b).1 b a hr2.1
      have e12 : ∀ v, (revise c (revise c d a b).1 b a).1 v = d v :=
        fun v => (he2 v).trans (he1 v)
      have h2 : ((revise c (revise c d a b).1 b a).1 b).isEmpty = false := by
        rw [e12 b]
        exact isEmpty_false_of_ne_nil Hba.2
      have hstep : ac3Loop c (fuel + 1) d ((a, b) :: rest) =
          ac3Loop c fuel (revise c (revise c d a b).1 b a).1 rest := by
        simp [ac3Loop, h1, h2, hr1.1, hr2.1]
      have hrest : arcsNb c rest := fun p hp => hnb p (List.mem_cons_of_mem _ hp)
      have hb' : rest.length + 1 ≤ fuel := by
        simp only [List.length_cons] at hb
        omega
      have H2 : ∀ x ∈ c.vars, ∀ y ∈ c.vars, (c.overlaps x y).isSome →
          arcCons c (revise c (revise c d a b).1 b a).1 x y ∧
          (revise c (revise c d a b).1 b a).1 x ≠ [] := by
        intro x hx y hy hov
        obtain ⟨hc, hne⟩ := H x hx y hy hov
        exact ⟨arcCons_transport (e12 x) (e12 y) hc, by rw [e12 x]; exact hne⟩
      obtain ⟨d', heq, hpt⟩ := ih rest _ hb' hrest H2
      exact ⟨d', by rw [hstep]; exact heq, fun v => (hpt v).trans (e12 v)⟩

/-- C8: re-running node- and arc-consistency enforcement on a store on
which `ac3` has already succeeded removes no further words and `ac3`
returns `True` again. -/
theorem c8_idempotent (c : Crossword) (hwf : WF c) (d0 : Domains)
    (h : (ac3All c (enforce_node_consistency c d0)).2 = true) :
    (∀ v, enforce_node_consistency c
        (ac3All c (enforce_node_consistency c d0)).1 v =
      (ac3All c (enforce_node_consistency c d0)).1 v) ∧
    (ac3All c (enforce_node_consistency c
      (ac3All c (enforce_node_consistency c d0)).1)).2 = true ∧
    (∀ v, (ac3All c (enforce_node_consistency c
        (ac3All c (enforce_node_consistency c d0)).1)).1 v =
      (ac3All c (enforce_node_consistency c d0)).1 v) := by
  set d1 := enforce_node_consistency c d0 with hd1
  set d2 := (ac3All c d1).1 with hd2
  have hsub : ∀ v, List.Sublist (d2 v) (d1 v) := by
    intro v
    have hrun : ac3Loop c (fuelBound c d1 (initialArcs c)) d1
        (initialArcs c) = some (ac3All c d1) := ac3_none_eq c d1
    exact ac3Loop_sublist c _ d1 (initialArcs c) (ac3All c d1).1
      (ac3All c d1).2 (by rw [hrun]) v
  have hfix : ∀ v, enforce_node_consistency c d2 v = d2 v := by
    intro v
    unfold enforce_node_consistency
    by_cases hv : v ∈ c.vars
    · rw [if_pos hv]
      refine List.filter_eq_self.mpr ?_
      intro w hw
      have hw1 : w ∈ d1 v := (hsub v).subset hw
      rw [hd1] at hw1
      unfold enforce_node_consistency at hw1
      rw [if_pos hv] at hw1
      exact (List.mem_filter.mp hw1).2
    · rw [if_neg hv]
  refine ⟨hfix, ?_⟩
  have H2 := ac3All_true_H c hwf d1 h
  have H3 : ∀ x ∈ c.vars, ∀ y ∈ c.vars, (c.overlaps x y).isSome →
      arcCons c (enforce_node_consistency c d2) x y ∧
      enforce_node_consistency c d2 x ≠ [] := by
    intro x hx y hy hov
    obtain ⟨hc, hne⟩ := H2 x hx y hy hov
    exact ⟨arcCons_transport (hfix x) (hfix y) hc, by rw [hfix x]; exact hne⟩
  obtain ⟨d', heq, hpt⟩ := ac3Loop_consistent_run c hwf
    (fuelBound c (enforce_node_consistency c d2) (initialArcs c))
    (initialArcs c) (enforce_node_consistency c d2)
    (by unfold fuelBound; omega) (arcsNb_initialArcs c) H3
  have hrun : ac3Loop c
      (fuelBound c (enforce_node_consistency c d2) (initialArcs c))
      (enforce_node_consistency c d2) (initialArcs c) =
      some (ac3All c (enforce_node_consistency c d2)) :=
    ac3_none_eq c (enforce_node_consistency c d2)
  rw [hrun] at heq
  injection heq with heq2
  constructor
  · rw [heq2]
  · intro v
    rw [heq2]
    show d' v = d2 v
    rw [hpt v, hfix v]

theorem c8_idempotent_witness :
    WF cSat ∧
    (ac3All cSat (enforce_node_consistency cSat (initialDomains cSat))).2 =
      true ∧
    (ac3All cSat (enforce_node_consistency cSat
      (ac3All cSat (enforce_node_consistency cSat
        (initialDomains cSat))).1)).2 = true :=
  ⟨by decide, by decide,
   (c8_idempotent cSat (by decide) (initialDomains cSat) (by decide)).2.1⟩

/-! ### `backtrack` never mutates its caller's dict -/

theorem tryListS_frame (c : Crossword) (d : Domains)
    (bt : Store → Nat → Store × Option (Option Nat))
    (hbt : ∀ (s : Store) (r q : Nat), q < s.next →
      (bt s r).1.mem q = s.mem q ∧ s.next ≤ (bt s r).1.next) :
    ∀ (ws : List Word) (s : Store) (r nr : Nat) (var : Variable) (q : Nat),
      q < s.next → q ≠ nr →
      (tryListS c bt s r nr var ws).1.mem q = s.mem q ∧
        s.next ≤ (tryListS c bt s r nr var ws).1.next
  | [], _, _, _, _, _, _, _ => ⟨rfl, le_refl _⟩
  | w :: ws, s, r, nr, var, q, hq, hqnr => by
    rw [tryListS]
    have hm1 : (storeWrite s nr (setKey (s.mem nr) var w)).mem q = s.mem q :=
      Function.update_noteq hqnr _ _
    have hn1 : (storeWrite s nr (setKey (s.mem nr) var w)).next = s.next := rfl
    by_cases hc : consistent c
        ((storeWrite s nr (setKey (s.mem nr) var w)).mem nr)
    · rw [if_pos hc]
      rcases hb : bt (storeWrite s nr (setKey (s.mem nr) var w)) nr with ⟨s2, o⟩
      have hb2 := hbt (storeWrite s nr (setKey (s.mem nr) var w)) nr q
        (by rw [hn1]; exact hq)
      rw [hb] at hb2
      simp only at hb2
      cases o with
      | none =>
        simp only [hb]
        exact ⟨hb2.1.trans hm1, by rw [← hn1]; exact hb2.2⟩
      | some oo =>
        cases oo with
        | some res =>
          simp only [hb]
          exact ⟨hb2.1.trans hm1, by rw [← hn1]; exact hb2.2⟩
        | none =>
          simp only [hb]
          have hq2 : q < s2.next := lt_of_lt_of_le (hn1 ▸ hq) hb2.2
          have hrec := tryListS_frame c d bt hbt ws
            (storeAlloc s2 (s2.mem r)).1 r (storeAlloc s2 (s2.mem r)).2 var q
            (by
              show q < s2.next + 1
              omega)
            (by
              show q ≠ s2.next
              omega)
          have hma : (storeAlloc s2 (s2.mem r)).1.mem q = s2.mem q :=
            Function.update_noteq (by show q ≠ s2.next; omega) _ _
          refine ⟨(hrec.1.trans hma).trans (hb2.1.trans hm1), ?_⟩
          have : s2.next + 1 ≤ (tryListS c bt (storeAlloc s2 (s2.mem r)).1 r
              (storeAlloc s2 (s2.mem r)).2 var ws).1.next := hrec.2
          have hns : s.next ≤ s2.next := hn1 ▸ hb2.2
          omega
    · rw [if_neg hc]
      have hrec := tryListS_frame c d bt hbt ws
        (storeWrite s nr (setKey (s.mem nr) var w)) r nr var q
        (by rw [hn1]; exact hq) hqnr
      exact ⟨hrec.1.trans hm1, by rw [← hn1]; exact hrec.2⟩

theorem backtrackFuelS_frame (c : Crossword) (d : Domains) :
    ∀ (fuel : Nat) (s : Store) (r q : Nat), q < s.next →
      (backtrackFuelS c d fuel s r).1.mem q = s.mem q ∧
        s.next ≤ (backtrackFuelS c d fuel s r).1.next
  | 0, _, _, _, _ => ⟨rfl, le_refl _⟩
  | fuel + 1, s, r, q, hq => by
    rw [backtrackFuelS]
    by_cases hcomp : assignment_complete c (s.mem r)
    · rw [if_pos hcomp]
      exact ⟨rfl, le_refl _⟩
    · rw [if_neg hcomp]
      cases hsel : select_unassigned_variable c d (s.mem r) with
      | none => exact ⟨rfl, le_refl _⟩
      | some var =>
        show (tryListS c (backtrackFuelS c d fuel) (storeAlloc s (s.mem r)).1
            r (storeAlloc s (s.mem r)).2 var
            (order_domain_values c d var)).1.mem q = s.mem q ∧
          s.next ≤ (tryListS c (backtrackFuelS c d fuel)
            (storeAlloc s (s.mem r)).1 r (storeAlloc s (s.mem r)).2 var
            (order_domain_values c d var)).1.next
        have hrec := tryListS_frame c d (backtrackFuelS c d fuel)
          (fun s' r' q' hq' => backtrackFuelS_frame c d fuel s' r' q' hq')
          (order_domain_values c d var) (storeAlloc s (s.mem r)).1 r
          (storeAlloc s (s.mem r)).2 var q
          (by show q < s.next + 1; omega)
          (by show q ≠ s.next; omega)
        have hma : (storeAlloc s (s.mem r)).1.mem q = s.mem q :=
          Function.update_noteq (by show q ≠ s.next; omega) _ _
        refine ⟨hrec.1.trans hma, ?_⟩
        have : s.next + 1 ≤ (tryListS c (backtrackFuelS c d fuel)
            (storeAlloc s (s.mem r)).1 r (storeAlloc s (s.mem r)).2 var
            (order_domain_values c d var)).1.next := hrec.2
        omega

/-- C9: `backtrack` never mutates the assignment object handed to it by
its caller — for any live cell `r` of the store, the dict in `r` after the
call is exactly the dict that was there before: every extension is written
to a freshly allocated copy and failed branches are discarded wholesale. -/
theorem c9_backtrack_no_mutation (c : Crossword) (d : Domains)
    (fuel : Nat) (s : Store) (r : Nat) (h : r < s.next) :
    (backtrackFuelS c d fuel s r).1.mem r = s.mem r :=
  (backtrackFuelS_frame c d fuel s r r h).1

theorem c9_backtrack_no_mutation_witness :
    0 < (Store.mk 1 (fun _ => ([] : Assignment))).next ∧
    (backtrackFuelS cSat
      (enforce_node_consistency cSat (initialDomains cSat)) 3
      (Store.mk 1 (fun _ => ([] : Assignment))) 0).1.mem 0 =
      (Store.mk 1 (fun _ => ([] : Assignment))).mem 0 :=
  ⟨by decide,
   c9_backtrack_no_mutation cSat
     (enforce_node_consistency cSat (initialDomains cSat)) 3
     (Store.mk 1 (fun _ => ([] : Assignment))) 0 (by decide)⟩

end CrosswordCSP
